import Mathlib

/-!
zapotel: the OpenTelemetry-shaped zap core.

A shallow embedding of `zapotel.go` (package `zapotel`) and of the few
constructors of `go.uber.org/zap` it calls, followed by theorems about
`Core.Write`, `Core.With` and the field builders `TraceID`, `SpanID`,
`Resource`. Types of other packages keep their package name (`trace.TraceID`).

Conventions of the embedding:
* a Go slice is a `List`;
* an `error` is an `Option String` (`none` is `nil`);
* an `interface{}` payload is a value of `Payload`, one constructor per dynamic
  type the program tests for, plus `nil` and `other`;
* a method of `Core` returns a `Call`: the calls it made on the inner core
  `next`, in order, and the value it returned;
* where sharing of memory matters, `With` and `Write` are given a second time on
  slices kept in backing arrays (`Heap`, `Slice`, `Mem.Core`), and `Core.Write` on
  memory is shown to make the call that `Core.Write` on values makes.
-/

namespace Zapotel

/-! ## Values of the OpenTelemetry packages -/

/-- A `byte`. -/
abbrev Byte := Fin 256

/-- The type `trace.TraceID`, a `[16]byte`. -/
structure trace.TraceID where
  bytes : List Byte
  size : bytes.length = 16
deriving DecidableEq

/-- The type `trace.SpanID`, an `[8]byte`. -/
structure trace.SpanID where
  bytes : List Byte
  size : bytes.length = 8
deriving DecidableEq

/-- The method `trace.TraceID.IsValid`: the identifier is not the all-zero `nilTraceID`. -/
def trace.TraceID.IsValid (t : trace.TraceID) : Bool :=
  t.bytes != List.replicate 16 0

/-- The method `trace.SpanID.IsValid`: the identifier is not the all-zero `nilSpanID`. -/
def trace.SpanID.IsValid (s : trace.SpanID) : Bool :=
  s.bytes != List.replicate 8 0

/-- The type `attribute.Value` by its `Type()`: `INVALID`, `BOOL`, `INT64`, `FLOAT64`
(kept as its 64 bits), `STRING` and the four slice types. -/
inductive attribute.Value where
  | INVALID
  | BOOL (v : Bool)
  | INT64 (v : Int)
  | FLOAT64 (bits : Nat)
  | STRING (v : String)
  | BOOLSLICE (v : List Bool)
  | INT64SLICE (v : List Int)
  | FLOAT64SLICE (bits : List Nat)
  | STRINGSLICE (v : List String)
deriving DecidableEq

/-- The type `attribute.KeyValue`. -/
structure attribute.KeyValue where
  Key : String
  Value : attribute.Value
deriving DecidableEq

/-- The type `resource.Resource`, by what `Attributes()` returns. -/
structure resource.Resource where
  Attributes : List attribute.KeyValue
deriving DecidableEq

/-! ## zapcore: fields, entries, the `Core` interface -/

/-- The type `zapcore.FieldType`, with the constants of `zapcore/field.go` in their order;
`UnknownType` is the zero value. -/
inductive FieldType where
  | UnknownType
  | ArrayMarshalerType
  | ObjectMarshalerType
  | BinaryType
  | BoolType
  | ByteStringType
  | Complex128Type
  | Complex64Type
  | DurationType
  | Float64Type
  | Float32Type
  | Int64Type
  | Int32Type
  | Int16Type
  | Int8Type
  | StringType
  | TimeType
  | TimeFullType
  | Uint64Type
  | Uint32Type
  | Uint16Type
  | Uint8Type
  | UintptrType
  | ReflectType
  | NamespaceType
  | StringerType
  | ErrorType
  | SkipType
  | InlineMarshalerType
deriving DecidableEq

/-- The dynamic value held by `Field.Interface`: `nil`, one of the three unexported wrapper
types of this package (`resourceWrapper` holds a `*resource.Resource`, hence an `Option`),
or a value of any other type (`other`, told apart by a tag). -/
inductive Payload where
  | nil
  | spanIDWrapper (spanID : trace.SpanID)
  | traceIDWrapper (traceID : trace.TraceID)
  | resourceWrapper (resource : Option resource.Resource)
  | other (tag : Nat)
deriving DecidableEq

/-- The type `zapcore.Field` (`zap.Field` is an alias of it). The defaults are Go's zero
values, so `{ Key := k }` is the composite literal `zap.Field{Key: k}`. -/
structure Field where
  Key : String := ""
  Typ : FieldType := FieldType.UnknownType
  Integer : Int := 0
  Str : String := ""
  Interface : Payload := Payload.nil
deriving DecidableEq

/-- The type `zapcore.Level`, an `int8`. -/
abbrev Level := Int

def DebugLevel : Level := -1
def InfoLevel : Level := 0
def WarnLevel : Level := 1
def ErrorLevel : Level := 2
def DPanicLevel : Level := 3
def PanicLevel : Level := 4
def FatalLevel : Level := 5

/-- The type `zapcore.EntryCaller`. -/
structure EntryCaller where
  Defined : Bool := false
  PC : Nat := 0
  File : String := ""
  Line : Int := 0
  Function : String := ""
deriving DecidableEq

/-- The type `zapcore.Entry`; `Time` is kept as nanoseconds since the epoch. -/
structure Entry where
  Level : Level := 0
  Time : Int := 0
  LoggerName : String := ""
  Message : String := ""
  Caller : EntryCaller := {}
  Stack : String := ""
deriving DecidableEq

/-- The constant `zapcore.OmitKey`. -/
def OmitKey : String := ""

/-- The inner `zapcore.Core` held in `Core.next`, by what its methods answer. -/
structure Sink where
  Enabled : Level → Bool
  Write : Entry → List Field → Option String
  Sync : Option String

/-- One method call made on the inner core, with its arguments. -/
inductive SinkCall where
  | Enabled (l : Level)
  | With (fields : List Field)
  | Write (e : Entry) (fields : List Field)
  | Sync
deriving DecidableEq

/-- What a method of `Core` did: the calls it made on `next`, in order, and its return value. -/
structure Call (α : Type) where
  calls : List SinkCall
  ret : α

/-! ## The field constructors of `go.uber.org/zap` used by the package -/

/-- The constructor `zap.Namespace`. -/
def zap.Namespace (key : String) : Field :=
  { Key := key, Typ := FieldType.NamespaceType }

/-- The constructor `zap.Inline`: it takes no key, the `Key` of the field stays empty. -/
def zap.Inline (val : Payload) : Field :=
  { Typ := FieldType.InlineMarshalerType, Interface := val }

/-- The constructor `zap.Object`. -/
def zap.Object (key : String) (val : Payload) : Field :=
  { Key := key, Typ := FieldType.ObjectMarshalerType, Interface := val }

/-- The typed slices of `zap/array.go` that implement `zapcore.ArrayMarshaler` and that
`zap.Bools`, `zap.Int64s`, `zap.Float64s`, `zap.Strings` wrap (a float is kept as its 64
bits). -/
inductive ArrayMarshaler where
  | bools (v : List Bool)
  | int64s (v : List Int)
  | float64s (bits : List Nat)
  | stringArray (v : List String)
deriving DecidableEq

/-- One call on a `zapcore.ObjectEncoder`, with its arguments. An encoder is kept as the
list of the calls made on it so far. -/
inductive EncoderCall where
  | AddBool (key : String) (v : Bool)
  | AddInt64 (key : String) (v : Int)
  | AddFloat64 (key : String) (bits : Nat)
  | AddString (key : String) (v : String)
  | AddArray (key : String) (arr : ArrayMarshaler)
deriving DecidableEq

/-- The expression `zap.Bools(key, v).AddTo(enc)`: the field has `ArrayMarshalerType`, for
which `Field.AddTo` calls `enc.AddArray(key, bools(v))`; the marshalers of the typed slices
return no error, so the error branch of `AddTo` adds nothing. -/
def zap.Bools.AddTo (key : String) (v : List Bool) (enc : List EncoderCall) :
    List EncoderCall :=
  enc ++ [EncoderCall.AddArray key (ArrayMarshaler.bools v)]

/-- The expression `zap.Int64s(key, v).AddTo(enc)`. -/
def zap.Int64s.AddTo (key : String) (v : List Int) (enc : List EncoderCall) :
    List EncoderCall :=
  enc ++ [EncoderCall.AddArray key (ArrayMarshaler.int64s v)]

/-- The expression `zap.Float64s(key, v).AddTo(enc)`. -/
def zap.Float64s.AddTo (key : String) (v : List Nat) (enc : List EncoderCall) :
    List EncoderCall :=
  enc ++ [EncoderCall.AddArray key (ArrayMarshaler.float64s v)]

/-- The expression `zap.Strings(key, v).AddTo(enc)`. -/
def zap.Strings.AddTo (key : String) (v : List String) (enc : List EncoderCall) :
    List EncoderCall :=
  enc ++ [EncoderCall.AddArray key (ArrayMarshaler.stringArray v)]

/-- The constructor `zap.Duration`; the duration is kept in nanoseconds. -/
def zap.Duration (key : String) (val : Int) : Field :=
  { Key := key, Typ := FieldType.DurationType, Integer := val }

/-- The constructor `zap.Int8`. -/
def zap.Int8 (key : String) (val : Int) : Field :=
  { Key := key, Typ := FieldType.Int8Type, Integer := val }

/-- The constructor `zap.Int`, which is `zap.Int64(key, int64(val))`. -/
def zap.Int (key : String) (val : Int) : Field :=
  { Key := key, Typ := FieldType.Int64Type, Integer := val }

/-- The constructor `zap.String`. -/
def zap.String (key : String) (val : String) : Field :=
  { Key := key, Typ := FieldType.StringType, Str := val }

/-! ## zapotel.go -/

/-- The struct `Core`: the inner core and the contextual fields. -/
structure Core where
  next : Sink
  fields : List Field

/-- The function `WrapCore`. -/
def WrapCore (base : Sink) : Core :=
  { next := base, fields := [] }

/-- The method `Core.Enabled`. -/
def Core.Enabled (c : Core) (l : Level) : Call Bool :=
  { calls := [SinkCall.Enabled l], ret := c.next.Enabled l }

/-- The method `Core.Sync`. -/
def Core.Sync (c : Core) : Call (Option String) :=
  { calls := [SinkCall.Sync], ret := c.next.Sync }

/-- The method `Core.With`: `newFields` starts as an empty slice of its own, receives
`c.fields`, then `fields`; the inner core is copied, none of its methods is called. -/
def Core.With (c : Core) (fields : List Field) : Call Core :=
  let newFields : List Field := []
  let newFields := newFields ++ c.fields
  let newFields := newFields ++ fields
  { calls := [], ret := { next := c.next, fields := newFields } }

def spanIDKey : String := "span_id"
def traceIDKey : String := "trace_id"
def resourceKey : String := "resource"

/-- The function `levelToSeverity`. -/
def levelToSeverity (l : Level) : Int :=
  if l = DebugLevel then 5
  else if l = InfoLevel then 9
  else if l = WarnLevel then 13
  else if l = ErrorLevel then 17
  else if l = PanicLevel ∨ l = FatalLevel then 21
  else 9

/-- The function `SpanID`. -/
def SpanID (spanID : trace.SpanID) : Field :=
  if !spanID.IsValid then
    { Key := OmitKey }
  else
    let w := Payload.spanIDWrapper spanID
    zap.Inline w

/-- The function `TraceID`. -/
def TraceID (traceID : trace.TraceID) : Field :=
  if !traceID.IsValid then
    { Key := OmitKey }
  else
    let w := Payload.traceIDWrapper traceID
    zap.Inline w

/-- The function `Resource`; its argument is a pointer, `none` is `nil`. -/
def Resource (resource : Option resource.Resource) : Field :=
  match resource with
  | none => { Key := OmitKey }
  | some r =>
    let w := Payload.resourceWrapper (some r)
    zap.Object resourceKey w

/-- The local variables of `Core.Write` that its loop updates: the three pointers
`traceID`, `spanID`, `resource` (`none` is `nil`) and the slice `attributes`. -/
structure Slots where
  traceID : Option Field := none
  spanID : Option Field := none
  resource : Option Field := none
  attributes : List Field := []
deriving DecidableEq

/-- One iteration of the loop labelled `FIELDS` in `Core.Write`, on the field `f`: the
nested switch on `f.Type` and `f.Key` with the type assertions; each `continue FIELDS`
leaves `attributes` as it is, every other path ends in `append(attributes, *f)`. -/
def Core.Write.visit (st : Slots) (f : Field) : Slots :=
  match f.Typ with
  | FieldType.InlineMarshalerType =>
    if f.Key = spanIDKey then
      match f.Interface with
      | Payload.spanIDWrapper _ => { st with spanID := some f }
      | _ => { st with attributes := st.attributes ++ [f] }
    else if f.Key = traceIDKey then
      match f.Interface with
      | Payload.traceIDWrapper _ => { st with traceID := some f }
      | _ => { st with attributes := st.attributes ++ [f] }
    else { st with attributes := st.attributes ++ [f] }
  | FieldType.ObjectMarshalerType =>
    if f.Key = resourceKey then
      match f.Interface with
      | Payload.resourceWrapper _ => { st with resource := some f }
      | _ => { st with attributes := st.attributes ++ [f] }
    else { st with attributes := st.attributes ++ [f] }
  | _ => { st with attributes := st.attributes ++ [f] }

/-- The two nested loops of `Core.Write`: over the groups `c.fields`, `in`, and over the
fields of each group. -/
def Core.Write.scan (groups : List (List Field)) : Slots :=
  groups.foldl (fun st fields => fields.foldl Core.Write.visit st) {}

/-- The method `Core.Write`. -/
def Core.Write (c : Core) (e : Entry) (inp : List Field) : Call (Option String) :=
  let out : List Field := []
  let out := out ++ [zap.String "body" e.Message]
  let out := out ++ [zap.Int "severity" (levelToSeverity e.Level)]
  let st := Core.Write.scan [c.fields, inp]
  let out := match st.traceID with
    | some f => out ++ [f]
    | none => out
  let out := match st.spanID with
    | some f => out ++ [f]
    | none => out
  let out := match st.resource with
    | some f => out ++ [f]
    | none => out
  let out := out ++ [zap.Namespace "attributes"]
  let out := out ++ st.attributes
  { calls := [SinkCall.Write e out], ret := c.next.Write e out }

/-- The method `resourceWrapper.MarshalLogObject`, on the pointer held by the wrapper and
the encoder; it returns the encoder after the calls and the error. `Attributes()` on a nil
resource is the empty list. -/
def resourceWrapper.MarshalLogObject (r : Option resource.Resource)
    (enc : List EncoderCall) : List EncoderCall × Option String :=
  let attributes : List attribute.KeyValue :=
    match r with
    | none => []
    | some res => res.Attributes
  let enc := attributes.foldl (fun enc a =>
    match a.Value with
    | attribute.Value.BOOL v => enc ++ [EncoderCall.AddBool a.Key v]
    | attribute.Value.INT64 v => enc ++ [EncoderCall.AddInt64 a.Key v]
    | attribute.Value.FLOAT64 v => enc ++ [EncoderCall.AddFloat64 a.Key v]
    | attribute.Value.STRING v => enc ++ [EncoderCall.AddString a.Key v]
    | attribute.Value.BOOLSLICE v => zap.Bools.AddTo a.Key v enc
    | attribute.Value.INT64SLICE v => zap.Int64s.AddTo a.Key v enc
    | attribute.Value.FLOAT64SLICE v => zap.Float64s.AddTo a.Key v enc
    | attribute.Value.STRINGSLICE v => zap.Strings.AddTo a.Key v enc
    | attribute.Value.INVALID => enc) enc
  (enc, none)

/-- The function `levelEncoder`; the `zapcore.PrimitiveArrayEncoder` is kept as the list of
the strings appended to it. The switch has no default case. -/
def levelEncoder (l : Level) (enc : List String) : List String :=
  if l = DebugLevel then enc ++ ["DEBUG"]
  else if l = InfoLevel then enc ++ ["INFO"]
  else if l = WarnLevel then enc ++ ["WARN"]
  else if l = ErrorLevel then enc ++ ["ERROR"]
  else if l = PanicLevel ∨ l = FatalLevel then enc ++ ["FATAL"]
  else enc

/-! ## Slices in memory

The same two methods, `With` and `Write`, on slices that live in backing arrays, to state
what they do to the memory they share with their callers. -/

/-- The memory: the backing arrays allocated so far, each of a fixed size. -/
abbrev Heap := List (List Field)

/-- A slice header: backing array, offset of the first element in it, length, capacity.
The zero value is the `nil` slice. -/
structure Slice where
  arr : Nat := 0
  off : Nat := 0
  len : Nat := 0
  cap : Nat := 0
deriving DecidableEq

/-- A pointer to an element of a backing array. -/
structure Ptr where
  arr : Nat
  idx : Nat
deriving DecidableEq

/-- The backing array number `a`. -/
def Heap.array (h : Heap) (a : Nat) : List Field :=
  h.getD a []

/-- The value `*p`. -/
def Heap.deref (h : Heap) (p : Ptr) : Field :=
  (Heap.array h p.arr).getD p.idx ({} : Field)

/-- The elements of the slice `s`. -/
def Heap.read (h : Heap) (s : Slice) : List Field :=
  ((Heap.array h s.arr).drop s.off).take s.len

/-- The pointer `&s[i]`. -/
def Slice.ptr (s : Slice) (i : Nat) : Ptr :=
  { arr := s.arr, idx := s.off + i }

/-- A slice that the program can hold: its length is within its capacity, and unless
the capacity is zero its window lies in an allocated array. -/
def Slice.valid (h : Heap) (s : Slice) : Prop :=
  s.len ≤ s.cap ∧ (s.cap = 0 ∨ (s.arr < h.length ∧ s.off + s.cap ≤ (Heap.array h s.arr).length))

/-- The builtin `make([]zap.Field, len, cap)`: a new zeroed array of `cap` elements. -/
def Heap.make (h : Heap) (len cap : Nat) : Heap × Slice :=
  (h ++ [List.replicate cap ({} : Field)], { arr := h.length, off := 0, len := len, cap := cap })

/-- The builtin `append(s, xs...)`: within the capacity the elements are written into the
backing array of `s`, after its last element; beyond it a larger array is allocated and
receives the elements of `s` and `xs` (its size is the choice of the Go runtime, taken
here as the larger of the needed length and twice the old capacity). -/
def Heap.append (h : Heap) (s : Slice) (xs : List Field) : Heap × Slice :=
  if s.len + xs.length ≤ s.cap then
    let a := Heap.array h s.arr
    (h.set s.arr (a.take (s.off + s.len) ++ xs ++ a.drop (s.off + s.len + xs.length)),
      { s with len := s.len + xs.length })
  else
    let n := s.len + xs.length
    let newcap := max n (2 * s.cap)
    (h ++ [Heap.read h s ++ xs ++ List.replicate (newcap - n) ({} : Field)],
      { arr := h.length, off := 0, len := n, cap := newcap })

/-- The struct `Core` with its `fields` slice in memory. -/
structure Mem.Core where
  next : Sink
  fields : Slice

/-- The method `Core.With` on memory: `make` with capacity `len(c.fields)+len(fields)`, two
`append`s, and the new `Core`. -/
def Mem.Core.With (h : Heap) (c : Mem.Core) (fields : Slice) : Heap × Mem.Core :=
  let r := Heap.make h 0 (c.fields.len + fields.len)
  let r := Heap.append r.1 r.2 (Heap.read r.1 c.fields)
  let r := Heap.append r.1 r.2 (Heap.read r.1 fields)
  (r.1, { next := c.next, fields := r.2 })

/-- The memory and the local variables that the loop of `Core.Write` updates: the three
pointers into the field slices and the slice `attributes`. -/
structure Mem.Locals where
  heap : Heap
  traceID : Option Ptr := none
  spanID : Option Ptr := none
  resource : Option Ptr := none
  attributes : Slice

/-- The statement `attributes = append(attributes, *f)`. -/
def Mem.Locals.push (st : Mem.Locals) (f : Ptr) : Mem.Locals :=
  let r := Heap.append st.heap st.attributes [Heap.deref st.heap f]
  { st with heap := r.1, attributes := r.2 }

/-- One iteration of the loop `FIELDS` on memory, for the pointer `f := &fields[i]`. -/
def Mem.Core.Write.visit (st : Mem.Locals) (f : Ptr) : Mem.Locals :=
  match (Heap.deref st.heap f).Typ with
  | FieldType.InlineMarshalerType =>
    if (Heap.deref st.heap f).Key = spanIDKey then
      match (Heap.deref st.heap f).Interface with
      | Payload.spanIDWrapper _ => { st with spanID := some f }
      | _ => st.push f
    else if (Heap.deref st.heap f).Key = traceIDKey then
      match (Heap.deref st.heap f).Interface with
      | Payload.traceIDWrapper _ => { st with traceID := some f }
      | _ => st.push f
    else st.push f
  | FieldType.ObjectMarshalerType =>
    if (Heap.deref st.heap f).Key = resourceKey then
      match (Heap.deref st.heap f).Interface with
      | Payload.resourceWrapper _ => { st with resource := some f }
      | _ => st.push f
    else st.push f
  | _ => st.push f

/-- The two nested loops of `Core.Write` on memory: `for i := range fields` over each of
the groups. -/
def Mem.Core.Write.scan (st : Mem.Locals) (groups : List Slice) : Mem.Locals :=
  groups.foldl (fun st fields =>
    (List.range fields.len).foldl (fun st i => Mem.Core.Write.visit st (fields.ptr i)) st) st

/-- The statement `if p != nil { out = append(out, *p) }`. -/
def Mem.appendDeref (r : Heap × Slice) (p : Option Ptr) : Heap × Slice :=
  match p with
  | some q => Heap.append r.1 r.2 [Heap.deref r.1 q]
  | none => r

/-- The method `Core.Write` on memory; the inner core receives the elements of `out`. -/
def Mem.Core.Write (h : Heap) (c : Mem.Core) (e : Entry) (inp : Slice) :
    Heap × Call (Option String) :=
  let length := inp.len + 3 + c.fields.len
  let out := Heap.make h 0 length
  let out := Heap.append out.1 out.2 [zap.String "body" e.Message]
  let out := Heap.append out.1 out.2 [zap.Int "severity" (levelToSeverity e.Level)]
  let attributes := Heap.make out.1 0 length
  let st := Mem.Core.Write.scan { heap := attributes.1, attributes := attributes.2 }
    [c.fields, inp]
  let out := Mem.appendDeref (st.heap, out.2) st.traceID
  let out := Mem.appendDeref out st.spanID
  let out := Mem.appendDeref out st.resource
  let out := Heap.append out.1 out.2 [zap.Namespace "attributes"]
  let out := Heap.append out.1 out.2 (Heap.read out.1 st.attributes)
  (out.1, { calls := [SinkCall.Write e (Heap.read out.1 out.2)],
            ret := c.next.Write e (Heap.read out.1 out.2) })

/-! ## Concrete values used in the examples -/

/-- The all-zero trace identifier. -/
def zeroTrace : trace.TraceID := ⟨List.replicate 16 0, rfl⟩

/-- The all-zero span identifier. -/
def zeroSpan : trace.SpanID := ⟨List.replicate 8 0, rfl⟩

/-- A valid trace identifier, `01 00 .. 00`. -/
def trace1 : trace.TraceID := ⟨1 :: List.replicate 15 0, rfl⟩

/-- A valid span identifier, `01 00 .. 00`. -/
def span1 : trace.SpanID := ⟨1 :: List.replicate 7 0, rfl⟩

/-- The resource of `TestCore`, its float kept as the bits of `64.0`. -/
def res1 : resource.Resource :=
  ⟨[⟨"bool", attribute.Value.BOOL true⟩, ⟨"string_slice", attribute.Value.STRINGSLICE ["a", "b"]⟩,
    ⟨"float", attribute.Value.FLOAT64 0x4050000000000000⟩]⟩

/-- A second resource. -/
def res2 : resource.Resource := ⟨[⟨"service.name", attribute.Value.STRING "api"⟩]⟩

/-- An inner core that accepts everything. -/
def okSink : Sink := { Enabled := fun _ => true, Write := fun _ _ => none, Sync := none }

/-- An entry at info level. -/
def entry1 : Entry := { Level := InfoLevel, Message := "testing 1234", LoggerName := "testing" }

/-- A memory with one array: two contextual fields, one call-site field, and two fields
to derive with. -/
def heap1 : Heap :=
  [[Resource (some res1), zap.Duration "seconds" 1450000000, zap.String "field_one" "one",
    zap.Int8 "field_two" 2, Resource (some res2)]]

/-- The decorator whose contextual fields are the first two elements of `heap1`. -/
def core1 : Mem.Core := { next := okSink, fields := { arr := 0, off := 0, len := 2, cap := 2 } }

/-- The slice of the third element of `heap1`. -/
def slice1 : Slice := { arr := 0, off := 2, len := 1, cap := 1 }

/-- The slice of the last two elements of `heap1`. -/
def slice2 : Slice := { arr := 0, off := 3, len := 2, cap := 2 }

/-- The memory and the child after `core1.With(slice2)` in `heap1`. -/
def derived1 : Heap × Mem.Core := Mem.Core.With heap1 core1 slice2

/-- The memory and the child after a second derivation, `core1.With(slice1)`. -/
def derived2 : Heap × Mem.Core := Mem.Core.With derived1.1 core1 slice1

/-! ## Vocabulary of the statements -/

/-- The first test of the classifier in `Core.Write`: inline type, key `trace_id`, payload
of dynamic type `traceIDWrapper`. -/
def isTraceField (f : Field) : Bool :=
  f.Typ == FieldType.InlineMarshalerType && f.Key == "trace_id" &&
    (match f.Interface with
     | Payload.traceIDWrapper _ => true
     | _ => false)

/-- The second test: inline type, key `span_id`, payload of dynamic type `spanIDWrapper`. -/
def isSpanField (f : Field) : Bool :=
  f.Typ == FieldType.InlineMarshalerType && f.Key == "span_id" &&
    (match f.Interface with
     | Payload.spanIDWrapper _ => true
     | _ => false)

/-- The third test: object type, key `resource`, payload of dynamic type `resourceWrapper`. -/
def isResourceField (f : Field) : Bool :=
  f.Typ == FieldType.ObjectMarshalerType && f.Key == "resource" &&
    (match f.Interface with
     | Payload.resourceWrapper _ => true
     | _ => false)

/-- A correlation field: one that passes one of the three tests. -/
def isCorrelation (f : Field) : Bool :=
  isTraceField f || isSpanField f || isResourceField f

/-- The three correlation kinds. -/
inductive Kind where
  | trace
  | span
  | resource
deriving DecidableEq

/-- The test of a kind. -/
def Kind.test : Kind → Field → Bool
  | Kind.trace => isTraceField
  | Kind.span => isSpanField
  | Kind.resource => isResourceField

/-- The last field of `l` that passes `p`, if there is one. -/
def lastOf (p : Field → Bool) (l : List Field) : Option Field :=
  (l.filter p).getLast?

/-- The fields that `Core.Write` hands to the inner core: the argument of the one `Write`
call it makes. -/
def forwarded (c : Core) (e : Entry) (inp : List Field) : List Field :=
  match (Core.Write c e inp).calls with
  | [SinkCall.Write _ out] => out
  | _ => []

/-- The encoder entry that the specification gives to one resource attribute: the method
of the attribute's type with its key and value, and none for a type outside the eight. -/
def entryOf (a : attribute.KeyValue) : Option EncoderCall :=
  match a.Value with
  | attribute.Value.INVALID => none
  | attribute.Value.BOOL v => some (EncoderCall.AddBool a.Key v)
  | attribute.Value.INT64 v => some (EncoderCall.AddInt64 a.Key v)
  | attribute.Value.FLOAT64 v => some (EncoderCall.AddFloat64 a.Key v)
  | attribute.Value.STRING v => some (EncoderCall.AddString a.Key v)
  | attribute.Value.BOOLSLICE v => some (EncoderCall.AddArray a.Key (ArrayMarshaler.bools v))
  | attribute.Value.INT64SLICE v => some (EncoderCall.AddArray a.Key (ArrayMarshaler.int64s v))
  | attribute.Value.FLOAT64SLICE v =>
    some (EncoderCall.AddArray a.Key (ArrayMarshaler.float64s v))
  | attribute.Value.STRINGSLICE v =>
    some (EncoderCall.AddArray a.Key (ArrayMarshaler.stringArray v))

/-- The attribute has one of the eight supported types. -/
def supportedType (a : attribute.KeyValue) : Bool :=
  match a.Value with
  | attribute.Value.INVALID => false
  | _ => true

/-- The levels that `levelToSeverity` and `levelEncoder` name in a case. -/
def recognisedLevel (l : Level) : Bool :=
  l == DebugLevel || l == InfoLevel || l == WarnLevel || l == ErrorLevel ||
    l == PanicLevel || l == FatalLevel

/-- A resource with one attribute of every type. -/
def res3 : resource.Resource :=
  ⟨[⟨"b", attribute.Value.BOOL true⟩, ⟨"x", attribute.Value.INVALID⟩,
    ⟨"i", attribute.Value.INT64 (-7)⟩, ⟨"s", attribute.Value.STRING "v"⟩,
    ⟨"f", attribute.Value.FLOAT64 0x4050000000000000⟩,
    ⟨"bs", attribute.Value.BOOLSLICE [true, false]⟩,
    ⟨"is", attribute.Value.INT64SLICE [1, 2]⟩,
    ⟨"fs", attribute.Value.FLOAT64SLICE [0]⟩,
    ⟨"ss", attribute.Value.STRINGSLICE ["a", "b"]⟩]⟩

/-- What the local variables of `Core.Write` on memory stand for: the fields pointed to
and the elements of `attributes`. -/
def Mem.Locals.abs (st : Mem.Locals) : Slots :=
  { traceID := st.traceID.map (Heap.deref st.heap),
    spanID := st.spanID.map (Heap.deref st.heap),
    resource := st.resource.map (Heap.deref st.heap),
    attributes := Heap.read st.heap st.attributes }

/-- The shape of the memory and of the local variables during the loop of `Core.Write`:
after the arrays of `h` come the array `O` of `out` and the array of `attributes`, which
starts with the elements `C`; the three pointers point into `h`. -/
def Mem.Locals.inv (st : Mem.Locals) (h : Heap) (O : List Field) (L : Nat)
    (C : List Field) : Prop :=
  (∃ R, st.heap = h ++ [O, C ++ R]) ∧
  st.attributes = { arr := h.length + 1, off := 0, len := C.length, cap := L } ∧
  (∀ p, st.traceID = some p → p.arr < h.length) ∧
  (∀ p, st.spanID = some p → p.arr < h.length) ∧
  (∀ p, st.resource = some p → p.arr < h.length)

/-! ## The classifier loop in closed form -/

theorem visit_eq (st : Slots) (f : Field) :
    Core.Write.visit st f =
      if isSpanField f then { st with spanID := some f }
      else if isTraceField f then { st with traceID := some f }
      else if isResourceField f then { st with resource := some f }
      else { st with attributes := st.attributes ++ [f] } := by
  rcases f with ⟨k, t, n, s, p⟩
  cases t <;> cases p <;>
    simp [Core.Write.visit, isSpanField, isTraceField, isResourceField, spanIDKey,
      traceIDKey, resourceKey]
  all_goals split_ifs
  all_goals simp_all

theorem lastOf_concat (p : Field → Bool) (l : List Field) (f : Field) :
    lastOf p (l ++ [f]) = if p f then some f else lastOf p l := by
  unfold lastOf
  by_cases h : p f = true
  · simp [List.filter_append, h]
  · simp [List.filter_append, h]

theorem kinds_disjoint (f : Field) :
    (isTraceField f = true → isSpanField f = false ∧ isResourceField f = false) ∧
    (isSpanField f = true → isTraceField f = false ∧ isResourceField f = false) ∧
    (isResourceField f = true → isTraceField f = false ∧ isSpanField f = false) := by
  rcases f with ⟨k, t, n, s, p⟩
  cases t <;> cases p <;> simp [isSpanField, isTraceField, isResourceField]

theorem foldl_visit (l : List Field) :
    l.foldl Core.Write.visit {} =
      { traceID := lastOf isTraceField l, spanID := lastOf isSpanField l,
        resource := lastOf isResourceField l,
        attributes := l.filter (fun f => !isCorrelation f) } := by
  induction l using List.reverseRecOn with
  | nil => simp [lastOf]
  | append_singleton l f ih =>
    rw [List.foldl_append, ih]
    simp only [List.foldl_cons, List.foldl_nil, visit_eq, lastOf_concat, List.filter_append]
    have hd := kinds_disjoint f
    by_cases hs : isSpanField f = true
    · simp [hs, (hd.2.1 hs).1, (hd.2.1 hs).2, isCorrelation]
    · by_cases ht : isTraceField f = true
      · simp [hs, ht, (hd.1 ht).2, isCorrelation]
      · by_cases hr : isResourceField f = true
        · simp [hs, ht, hr, isCorrelation]
        · simp [hs, ht, hr, isCorrelation]

theorem scan_eq (a b : List Field) :
    Core.Write.scan [a, b] =
      { traceID := lastOf isTraceField (a ++ b), spanID := lastOf isSpanField (a ++ b),
        resource := lastOf isResourceField (a ++ b),
        attributes := (a ++ b).filter (fun f => !isCorrelation f) } := by
  unfold Core.Write.scan
  simp only [List.foldl_cons, List.foldl_nil]
  rw [← List.foldl_append, foldl_visit]

theorem Write_calls (c : Core) (e : Entry) (inp : List Field) :
    (Core.Write c e inp).calls = [SinkCall.Write e (forwarded c e inp)] := by
  rfl

theorem forwarded_eq (c : Core) (e : Entry) (inp : List Field) :
    forwarded c e inp =
      [zap.String "body" e.Message, zap.Int "severity" (levelToSeverity e.Level)]
        ++ (lastOf isTraceField (c.fields ++ inp)).toList
        ++ (lastOf isSpanField (c.fields ++ inp)).toList
        ++ (lastOf isResourceField (c.fields ++ inp)).toList
        ++ [zap.Namespace "attributes"]
        ++ (c.fields ++ inp).filter (fun f => !isCorrelation f) := by
  simp only [forwarded, Core.Write, scan_eq]
  cases lastOf isTraceField (c.fields ++ inp) <;>
    cases lastOf isSpanField (c.fields ++ inp) <;>
    cases lastOf isResourceField (c.fields ++ inp) <;> simp

/-! ## Facts about `lastOf` and the attribute list -/

theorem lastOf_mem (p : Field → Bool) (l : List Field) (f : Field)
    (h : lastOf p l = some f) : p f = true ∧ f ∈ l := by
  unfold lastOf at h
  have hm : f ∈ l.filter p := List.mem_of_getLast?_eq_some h
  rw [List.mem_filter] at hm
  exact ⟨hm.2, hm.1⟩

theorem lastOf_none (p : Field → Bool) (l : List Field)
    (h : ∀ f ∈ l, p f = false) : lastOf p l = none := by
  unfold lastOf
  have : l.filter p = [] := by
    rw [List.filter_eq_nil_iff]
    intro a ha
    simp [h a ha]
  simp [this]

theorem lastOf_split (p : Field → Bool) (pre post : List Field) (y : Field)
    (hy : p y = true) (hpost : ∀ f ∈ post, p f = false) :
    lastOf p (pre ++ y :: post) = some y := by
  unfold lastOf
  have hnil : post.filter p = [] := by
    rw [List.filter_eq_nil_iff]
    intro a ha
    simp [hpost a ha]
  simp [List.filter_append, List.filter_cons, hy, hnil]

theorem slot_mem (p : Field → Bool) (l : List Field) (f : Field)
    (h : f ∈ (lastOf p l).toList) : p f = true ∧ f ∈ l := by
  cases hl : lastOf p l with
  | none => simp [hl] at h
  | some g =>
    simp [hl] at h
    subst h
    exact lastOf_mem p l f hl

theorem attrs_not_kind (k : Kind) (l : List Field) (f : Field)
    (h : f ∈ l.filter (fun g => !isCorrelation g)) : k.test f = false := by
  rw [List.mem_filter] at h
  have hc := h.2
  cases k <;> simp [isCorrelation] at hc <;> simp [Kind.test, hc]

theorem kind_test_disjoint (k j : Kind) (f : Field) (hk : k.test f = true) (hne : j ≠ k) :
    j.test f = false := by
  have hd := kinds_disjoint f
  cases k <;> cases j <;> simp [Kind.test] at hk hne ⊢
  · exact (hd.1 hk).1
  · exact (hd.1 hk).2
  · exact (hd.2.1 hk).1
  · exact (hd.2.1 hk).2
  · exact (hd.2.2 hk).1
  · exact (hd.2.2 hk).2

theorem correlation_typ (f : Field) (h : isCorrelation f = true) :
    f.Typ = FieldType.InlineMarshalerType ∨ f.Typ = FieldType.ObjectMarshalerType := by
  rcases f with ⟨k, t, n, s, p⟩
  cases t <;> simp_all [isCorrelation, isSpanField, isTraceField, isResourceField]

theorem correlation_iff_kind (f : Field) :
    isCorrelation f = true ↔ ∃ k : Kind, k.test f = true := by
  constructor
  · intro h
    simp only [isCorrelation, Bool.or_eq_true] at h
    rcases h with (h | h) | h
    · exact ⟨Kind.trace, h⟩
    · exact ⟨Kind.span, h⟩
    · exact ⟨Kind.resource, h⟩
  · rintro ⟨k, hk⟩
    cases k <;> simp_all [Kind.test, isCorrelation]

theorem mem_slots_iff (m : List Field) (f : Field) :
    f ∈ (lastOf isTraceField m).toList ++ (lastOf isSpanField m).toList
        ++ (lastOf isResourceField m).toList ↔
      ∃ k : Kind, lastOf k.test m = some f := by
  simp only [List.mem_append, Option.mem_toList, Option.mem_def]
  constructor
  · rintro ((h | h) | h)
    · exact ⟨Kind.trace, h⟩
    · exact ⟨Kind.span, h⟩
    · exact ⟨Kind.resource, h⟩
  · rintro ⟨k, hk⟩
    cases k
    · exact Or.inl (Or.inl hk)
    · exact Or.inl (Or.inr hk)
    · exact Or.inr hk

theorem head_no_namespace (e : Entry) (m : List Field) :
    ∀ g ∈ [zap.String "body" e.Message, zap.Int "severity" (levelToSeverity e.Level)]
        ++ ((lastOf isTraceField m).toList ++ (lastOf isSpanField m).toList
          ++ (lastOf isResourceField m).toList),
      g.Typ ≠ FieldType.NamespaceType := by
  intro g hg
  rw [List.mem_append] at hg
  rcases hg with hg | hg
  · simp only [List.mem_cons, List.mem_singleton, List.not_mem_nil, or_false] at hg
    rcases hg with rfl | rfl <;> simp [zap.String, zap.Int]
  · obtain ⟨k, hk⟩ := (mem_slots_iff _ g).1 hg
    have hc : isCorrelation g = true :=
      (correlation_iff_kind g).2 ⟨k, (lastOf_mem _ _ g hk).1⟩
    rcases correlation_typ g hc with h | h <;> simp [h]

theorem forwarded_split (c : Core) (e : Entry) (inp : List Field) :
    forwarded c e inp =
      ([zap.String "body" e.Message, zap.Int "severity" (levelToSeverity e.Level)]
        ++ ((lastOf isTraceField (c.fields ++ inp)).toList
          ++ (lastOf isSpanField (c.fields ++ inp)).toList
          ++ (lastOf isResourceField (c.fields ++ inp)).toList))
      ++ [zap.Namespace "attributes"]
      ++ (c.fields ++ inp).filter (fun f => !isCorrelation f) := by
  rw [forwarded_eq]
  simp

theorem correlation_spelled (f : Field) :
    isCorrelation f = true ↔
      (f.Typ = FieldType.InlineMarshalerType ∧ f.Key = "trace_id" ∧
        ∃ t, f.Interface = Payload.traceIDWrapper t) ∨
      (f.Typ = FieldType.InlineMarshalerType ∧ f.Key = "span_id" ∧
        ∃ s, f.Interface = Payload.spanIDWrapper s) ∨
      (f.Typ = FieldType.ObjectMarshalerType ∧ f.Key = "resource" ∧
        ∃ r, f.Interface = Payload.resourceWrapper r) := by
  rcases f with ⟨k, t, n, s, p⟩
  cases t <;> cases p <;> simp [isCorrelation, isSpanField, isTraceField, isResourceField]

/-! ## The shape of the forwarded sequence -/

/-- C1: for every decorator, entry and call-site field list, the one `Write` call made on
the inner core carries `[String("body", Message), Int("severity", levelToSeverity Level)]
++ T ++ S ++ R ++ [Namespace("attributes")] ++ attributes`, where each of `T`, `S`, `R` is
empty or a single field of the merged input that passes the trace, span, resource test
respectively, and `attributes` are the fields of the merged input that pass no test. -/
theorem C1_write_shape (c : Core) (e : Entry) (inp : List Field) :
    ∃ T S R : List Field,
      (Core.Write c e inp).calls =
        [SinkCall.Write e
          ([zap.String "body" e.Message, zap.Int "severity" (levelToSeverity e.Level)]
            ++ T ++ S ++ R ++ [zap.Namespace "attributes"]
            ++ (c.fields ++ inp).filter (fun f => !isCorrelation f))] ∧
      (T = [] ∨ ∃ f, T = [f] ∧ isTraceField f = true ∧ f ∈ c.fields ++ inp) ∧
      (S = [] ∨ ∃ f, S = [f] ∧ isSpanField f = true ∧ f ∈ c.fields ++ inp) ∧
      (R = [] ∨ ∃ f, R = [f] ∧ isResourceField f = true ∧ f ∈ c.fields ++ inp) := by
  have slot : ∀ p : Field → Bool,
      (lastOf p (c.fields ++ inp)).toList = [] ∨
        ∃ f, (lastOf p (c.fields ++ inp)).toList = [f] ∧ p f = true ∧ f ∈ c.fields ++ inp := by
    intro p
    cases h : lastOf p (c.fields ++ inp) with
    | none => exact Or.inl rfl
    | some f => exact Or.inr ⟨f, rfl, lastOf_mem p _ f h⟩
  refine ⟨(lastOf isTraceField (c.fields ++ inp)).toList,
    (lastOf isSpanField (c.fields ++ inp)).toList,
    (lastOf isResourceField (c.fields ++ inp)).toList, ?_, slot _, slot _, slot _⟩
  rw [Write_calls, forwarded_eq]

/-! ## Several correlation fields of one kind -/

/-- C2, counterexample: a decorator derived with the resource field of `res1`, written to
with the resource field of `res2` at the call site, forwards the call-site field in the
resource slot; the contextual one is not forwarded. -/
theorem C2_counterexample :
    isResourceField (Resource (some res1)) = true ∧
    isResourceField (Resource (some res2)) = true ∧
    Resource (some res1) ≠ Resource (some res2) ∧
    (Core.Write ((WrapCore okSink).With [Resource (some res1)]).ret entry1
        [Resource (some res2)]).calls =
      [SinkCall.Write entry1
        [zap.String "body" "testing 1234", zap.Int "severity" 9, Resource (some res2),
          zap.Namespace "attributes"]] := by
  decide

/-- C2, amended: for each correlation kind, when the call-site fields contain a correlation
field of that kind and `Y` is the last such field, the forwarded sequence holds `Y` before
the `attributes` namespace marker and no other field of that kind anywhere: the last match
in merge order wins, so a contextual field `X` of the same kind is not forwarded. -/
theorem C2_last_match_wins (k : Kind) (c : Core) (e : Entry) (pre post : List Field)
    (Y : Field) (hY : k.test Y = true) (hpost : ∀ f ∈ post, k.test f = false) :
    ∃ A B : List Field,
      (Core.Write c e (pre ++ Y :: post)).calls =
        [SinkCall.Write e
          ([zap.String "body" e.Message, zap.Int "severity" (levelToSeverity e.Level)]
            ++ A ++ [Y] ++ B ++ [zap.Namespace "attributes"]
            ++ (c.fields ++ (pre ++ Y :: post)).filter (fun f => !isCorrelation f))] ∧
      (∀ f ∈ A ++ B, k.test f = false) ∧
      (∀ f ∈ (c.fields ++ (pre ++ Y :: post)).filter (fun f => !isCorrelation f),
        k.test f = false) := by
  have hlast : lastOf k.test (c.fields ++ (pre ++ Y :: post)) = some Y := by
    rw [← List.append_assoc]
    exact lastOf_split k.test (c.fields ++ pre) post Y hY hpost
  have hother : ∀ j : Kind, j ≠ k →
      ∀ f ∈ (lastOf j.test (c.fields ++ (pre ++ Y :: post))).toList, k.test f = false := by
    intro j hj f hf
    exact kind_test_disjoint j k f (slot_mem _ _ f hf).1 (Ne.symm hj)
  have hattr := fun f hf => attrs_not_kind k (c.fields ++ (pre ++ Y :: post)) f hf
  rw [Write_calls, forwarded_eq]
  cases k with
  | trace =>
    refine ⟨[], (lastOf isSpanField (c.fields ++ (pre ++ Y :: post))).toList ++
      (lastOf isResourceField (c.fields ++ (pre ++ Y :: post))).toList, ?_, ?_, hattr⟩
    · simp only [Kind.test] at hlast
      simp [hlast]
    · intro f hf
      simp only [List.nil_append, List.mem_append] at hf
      rcases hf with hf | hf
      · exact hother Kind.span (by decide) f hf
      · exact hother Kind.resource (by decide) f hf
  | span =>
    refine ⟨(lastOf isTraceField (c.fields ++ (pre ++ Y :: post))).toList,
      (lastOf isResourceField (c.fields ++ (pre ++ Y :: post))).toList, ?_, ?_, hattr⟩
    · simp only [Kind.test] at hlast
      simp [hlast]
    · intro f hf
      simp only [List.mem_append] at hf
      rcases hf with hf | hf
      · exact hother Kind.trace (by decide) f hf
      · exact hother Kind.resource (by decide) f hf
  | resource =>
    refine ⟨(lastOf isTraceField (c.fields ++ (pre ++ Y :: post))).toList ++
      (lastOf isSpanField (c.fields ++ (pre ++ Y :: post))).toList, [], ?_, ?_, hattr⟩
    · simp only [Kind.test] at hlast
      simp [hlast]
    · intro f hf
      simp only [List.append_nil, List.mem_append] at hf
      rcases hf with hf | hf
      · exact hother Kind.trace (by decide) f hf
      · exact hother Kind.span (by decide) f hf

/-- C2, witness: the amended statement at the decorator derived with the resource field
of `res1` and the call-site resource field of `res2`. -/
theorem C2_last_match_wins_witness :
    Kind.resource.test (Resource (some res2)) = true ∧
    ∃ A B : List Field,
      (Core.Write ((WrapCore okSink).With [Resource (some res1)]).ret entry1
          ([] ++ Resource (some res2) :: [])).calls =
        [SinkCall.Write entry1
          ([zap.String "body" entry1.Message,
              zap.Int "severity" (levelToSeverity entry1.Level)]
            ++ A ++ [Resource (some res2)] ++ B ++ [zap.Namespace "attributes"]
            ++ (((WrapCore okSink).With [Resource (some res1)]).ret.fields
                ++ ([] ++ Resource (some res2) :: [])).filter
                  (fun f => !isCorrelation f))] ∧
      (∀ f ∈ A ++ B, Kind.resource.test f = false) ∧
      (∀ f ∈ (((WrapCore okSink).With [Resource (some res1)]).ret.fields
                ++ ([] ++ Resource (some res2) :: [])).filter (fun f => !isCorrelation f),
        Kind.resource.test f = false) :=
  ⟨by decide,
    C2_last_match_wins Kind.resource ((WrapCore okSink).With [Resource (some res1)]).ret
      entry1 [] [] (Resource (some res2)) (by decide) (by simp)⟩

/-- C3, counterexample: with the resource fields of `res1` and of `res2` both at the call
site, the first is part of the merged input and is nowhere in the forwarded sequence. -/
theorem C3_counterexample :
    Resource (some res1) ∈
      (WrapCore okSink).fields ++ [Resource (some res1), Resource (some res2)] ∧
    (Core.Write (WrapCore okSink) entry1
        [Resource (some res1), Resource (some res2)]).calls =
      [SinkCall.Write entry1
        [zap.String "body" "testing 1234", zap.Int "severity" 9, Resource (some res2),
          zap.Namespace "attributes"]] ∧
    Resource (some res1) ∉
      [zap.String "body" "testing 1234", zap.Int "severity" 9, Resource (some res2),
        zap.Namespace "attributes"] := by
  decide

/-- C3, amended: for every Write and every field `f` of the merged input (contextual fields
followed by call-site fields): if `f` is not a correlation field it is forwarded after the
`attributes` namespace marker; if `f` is a correlation field it is never after the marker,
and it is forwarded before the marker exactly when it is the last field of its kind in the
merged input. A correlation field followed by another of its kind is not classified as an
attribute. -/
theorem C3_forwarded_fields (c : Core) (e : Entry) (inp : List Field) (f : Field)
    (hf : f ∈ c.fields ++ inp) :
    ∃ head : List Field,
      (Core.Write c e inp).calls =
        [SinkCall.Write e
          (head ++ [zap.Namespace "attributes"]
            ++ (c.fields ++ inp).filter (fun g => !isCorrelation g))] ∧
      (∀ g ∈ head, g.Typ ≠ FieldType.NamespaceType) ∧
      (isCorrelation f = false →
        f ∈ (c.fields ++ inp).filter (fun g => !isCorrelation g)) ∧
      (isCorrelation f = true →
        f ∉ (c.fields ++ inp).filter (fun g => !isCorrelation g) ∧
        (f ∈ head ↔ ∃ k : Kind, lastOf k.test (c.fields ++ inp) = some f)) := by
  refine ⟨[zap.String "body" e.Message, zap.Int "severity" (levelToSeverity e.Level)]
      ++ ((lastOf isTraceField (c.fields ++ inp)).toList
        ++ (lastOf isSpanField (c.fields ++ inp)).toList
        ++ (lastOf isResourceField (c.fields ++ inp)).toList), ?_, ?_, ?_, ?_⟩
  · rw [Write_calls, forwarded_eq]
    simp
  · intro g hg
    rw [List.mem_append] at hg
    rcases hg with hg | hg
    · simp only [List.mem_cons, List.mem_singleton, List.not_mem_nil, or_false] at hg
      rcases hg with rfl | rfl <;> simp [zap.String, zap.Int]
    · obtain ⟨k, hk⟩ := (mem_slots_iff _ g).1 hg
      have hc : isCorrelation g = true :=
        (correlation_iff_kind g).2 ⟨k, (lastOf_mem _ _ g hk).1⟩
      rcases correlation_typ g hc with h | h <;> simp [h]
  · intro hc
    rw [List.mem_filter]
    exact ⟨hf, by simp [hc]⟩
  · intro hc
    refine ⟨?_, ?_⟩
    · rw [List.mem_filter]
      simp [hc]
    · rw [List.mem_append, mem_slots_iff]
      constructor
      · rintro (h | h)
        · simp only [List.mem_cons, List.mem_singleton, List.not_mem_nil, or_false] at h
          rcases correlation_typ f hc with ht | ht <;>
            rcases h with rfl | rfl <;> simp [zap.String, zap.Int] at ht
        · exact h
      · exact fun h => Or.inr h

/-- C3, witness: the amended statement at two call-site resource fields, for the second. -/
theorem C3_forwarded_fields_witness :
    Resource (some res2) ∈
      (WrapCore okSink).fields ++ [Resource (some res1), Resource (some res2)] ∧
    ∃ head : List Field,
      (Core.Write (WrapCore okSink) entry1
          [Resource (some res1), Resource (some res2)]).calls =
        [SinkCall.Write entry1
          (head ++ [zap.Namespace "attributes"]
            ++ ((WrapCore okSink).fields
                ++ [Resource (some res1), Resource (some res2)]).filter
                  (fun g => !isCorrelation g))] ∧
      (∀ g ∈ head, g.Typ ≠ FieldType.NamespaceType) ∧
      (isCorrelation (Resource (some res2)) = false →
        Resource (some res2) ∈
          ((WrapCore okSink).fields
            ++ [Resource (some res1), Resource (some res2)]).filter
              (fun g => !isCorrelation g)) ∧
      (isCorrelation (Resource (some res2)) = true →
        Resource (some res2) ∉
          ((WrapCore okSink).fields
            ++ [Resource (some res1), Resource (some res2)]).filter
              (fun g => !isCorrelation g) ∧
        (Resource (some res2) ∈ head ↔
          ∃ k : Kind, lastOf k.test ((WrapCore okSink).fields
            ++ [Resource (some res1), Resource (some res2)]) = some (Resource (some res2)))) :=
  ⟨by decide,
    C3_forwarded_fields (WrapCore okSink) entry1 [Resource (some res1), Resource (some res2)]
      (Resource (some res2)) (by decide)⟩

/-! ## The builders and the classifier -/

/-- C4, the code at a failing input: the fields built by `TraceID` and `SpanID` from valid
identifiers, given at the call site or as contextual fields through `With`, are forwarded
after the `attributes` namespace marker, and nothing stands in the trace and span slots. -/
theorem C4_trace_span_not_recognised :
    trace1.IsValid = true ∧ span1.IsValid = true ∧
    (Core.Write (WrapCore okSink) entry1 [TraceID trace1, SpanID span1]).calls =
      [SinkCall.Write entry1
        [zap.String "body" "testing 1234", zap.Int "severity" 9, zap.Namespace "attributes",
          TraceID trace1, SpanID span1]] ∧
    (Core.Write ((WrapCore okSink).With [TraceID trace1, SpanID span1]).ret entry1 []).calls =
      [SinkCall.Write entry1
        [zap.String "body" "testing 1234", zap.Int "severity" 9, zap.Namespace "attributes",
          TraceID trace1, SpanID span1]] := by
  decide

/-- C5, the code at a failing input: the field returned by `TraceID` and by `SpanID` has the
empty key for every identifier; for the valid `trace1` and `span1` it is the inline field
with the empty key and the wrapper as payload, which fails the classifier's test. -/
theorem C5_builder_key_empty :
    (∀ t : trace.TraceID, (TraceID t).Key = "") ∧
    (∀ s : trace.SpanID, (SpanID s).Key = "") ∧
    trace1.IsValid = true ∧ span1.IsValid = true ∧
    TraceID trace1 =
      { Key := "", Typ := FieldType.InlineMarshalerType,
        Interface := Payload.traceIDWrapper trace1 } ∧
    SpanID span1 =
      { Key := "", Typ := FieldType.InlineMarshalerType,
        Interface := Payload.spanIDWrapper span1 } ∧
    isTraceField (TraceID trace1) = false ∧ isSpanField (SpanID span1) = false := by
  refine ⟨?_, ?_, by decide, by decide, by decide, by decide, by decide, by decide⟩
  · intro t
    unfold TraceID
    split <;> rfl
  · intro s
    unfold SpanID
    split <;> rfl

/-- C6, the code at a failing input: for the all-zero trace identifier, the all-zero span
identifier and the nil resource the builders return the zero `Field` (empty key, type
`UnknownType`), and a Write that receives it forwards it after the `attributes` namespace
marker: one field more than the Write without it. -/
theorem C6_invalid_field_forwarded :
    zeroTrace.IsValid = false ∧ zeroSpan.IsValid = false ∧
    TraceID zeroTrace = { Key := "", Typ := FieldType.UnknownType } ∧
    SpanID zeroSpan = { Key := "", Typ := FieldType.UnknownType } ∧
    Resource none = { Key := "", Typ := FieldType.UnknownType } ∧
    (Core.Write (WrapCore okSink) entry1 [TraceID zeroTrace]).calls =
      [SinkCall.Write entry1
        [zap.String "body" "testing 1234", zap.Int "severity" 9, zap.Namespace "attributes",
          { Key := "", Typ := FieldType.UnknownType }]] ∧
    (Core.Write ((WrapCore okSink).With [SpanID zeroSpan]).ret entry1 []).calls =
      [SinkCall.Write entry1
        [zap.String "body" "testing 1234", zap.Int "severity" 9, zap.Namespace "attributes",
          { Key := "", Typ := FieldType.UnknownType }]] ∧
    (Core.Write (WrapCore okSink) entry1 [Resource none]).calls =
      [SinkCall.Write entry1
        [zap.String "body" "testing 1234", zap.Int "severity" 9, zap.Namespace "attributes",
          { Key := "", Typ := FieldType.UnknownType }]] ∧
    (Core.Write (WrapCore okSink) entry1 []).calls =
      [SinkCall.Write entry1
        [zap.String "body" "testing 1234", zap.Int "severity" 9,
          zap.Namespace "attributes"]] := by
  decide

/-- C7: for every non-nil resource `r`, `Resource(r)` is the field with key `resource`, type
object-marshaler and a `resourceWrapper` payload; and for every decorator whose contextual
fields hold that field once, all other contextual fields and all call-site fields being
ordinary (no correlation field), Write forwards body, severity, the resource field, the
`attributes` namespace marker and then every ordinary field in input order, so the
resource field occurs exactly once in the forwarded sequence. -/
theorem C7_resource_forwarded_once (r : resource.Resource) (c : Core) (e : Entry)
    (pre post inp : List Field) (hc : c.fields = pre ++ Resource (some r) :: post)
    (hpre : ∀ f ∈ pre, isCorrelation f = false)
    (hpost : ∀ f ∈ post, isCorrelation f = false)
    (hinp : ∀ f ∈ inp, isCorrelation f = false) :
    Resource (some r) =
      { Key := "resource", Typ := FieldType.ObjectMarshalerType,
        Interface := Payload.resourceWrapper (some r) } ∧
    (Core.Write c e inp).calls =
      [SinkCall.Write e
        ([zap.String "body" e.Message, zap.Int "severity" (levelToSeverity e.Level),
            Resource (some r), zap.Namespace "attributes"] ++ pre ++ post ++ inp)] ∧
    (forwarded c e inp).count (Resource (some r)) = 1 := by
  have hres : isResourceField (Resource (some r)) = true := by
    simp [Resource, zap.Object, resourceKey, isResourceField]
  have hcorr : isCorrelation (Resource (some r)) = true := by
    simp [isCorrelation, hres]
  have hall : ∀ f ∈ pre ++ post ++ inp, isCorrelation f = false := by
    intro f hf
    simp only [List.mem_append] at hf
    rcases hf with (h | h) | h
    · exact hpre f h
    · exact hpost f h
    · exact hinp f h
  have hkind : ∀ k : Kind, k ≠ Kind.resource →
      lastOf k.test (c.fields ++ inp) = none := by
    intro k hk
    apply lastOf_none
    intro f hf
    rw [hc] at hf
    simp only [List.mem_append, List.mem_cons] at hf
    have hcase : f = Resource (some r) ∨ f ∈ pre ++ post ++ inp := by
      simp only [List.mem_append]
      tauto
    rcases hcase with rfl | h
    · exact kind_test_disjoint Kind.resource k _ hres hk
    · have hn := hall f h
      cases hk2 : k.test f
      · rfl
      · rw [(correlation_iff_kind f).2 ⟨k, hk2⟩] at hn
        cases hn
  have hlast : lastOf isResourceField (c.fields ++ inp) = some (Resource (some r)) := by
    rw [hc, List.append_assoc, List.cons_append]
    apply lastOf_split _ _ _ _ hres
    intro f hf
    have hn := hall f (by simp only [List.mem_append] at hf ⊢; tauto)
    cases hk2 : isResourceField f
    · rfl
    · rw [(correlation_iff_kind f).2 ⟨Kind.resource, hk2⟩] at hn
      cases hn
  have hfilter : (c.fields ++ inp).filter (fun f => !isCorrelation f) = pre ++ post ++ inp := by
    have hkeep : ∀ l : List Field, (∀ f ∈ l, isCorrelation f = false) →
        l.filter (fun f => !isCorrelation f) = l := by
      intro l hl
      rw [List.filter_eq_self]
      intro a ha
      simp [hl a ha]
    rw [hc]
    simp only [List.filter_append, List.filter_cons, hcorr, Bool.not_true]
    rw [hkeep pre hpre, hkeep post hpost, hkeep inp hinp]
    simp
  have hT := hkind Kind.trace (by decide)
  have hS := hkind Kind.span (by decide)
  simp only [Kind.test] at hT hS
  have hfw : forwarded c e inp =
      [zap.String "body" e.Message, zap.Int "severity" (levelToSeverity e.Level),
        Resource (some r), zap.Namespace "attributes"] ++ pre ++ post ++ inp := by
    rw [forwarded_eq, hT, hS, hlast, hfilter]
    simp
  refine ⟨by simp [Resource, zap.Object, resourceKey], ?_, ?_⟩
  · rw [Write_calls, hfw]
  · have hnot : Resource (some r) ∉ pre ++ post ++ inp := by
      intro hmem
      have := hall _ hmem
      rw [hcorr] at this
      cases this
    have hsplit : [zap.String "body" e.Message,
          zap.Int "severity" (levelToSeverity e.Level), Resource (some r),
          zap.Namespace "attributes"] ++ pre ++ post ++ inp =
        [zap.String "body" e.Message, zap.Int "severity" (levelToSeverity e.Level),
          Resource (some r), zap.Namespace "attributes"] ++ (pre ++ post ++ inp) := by
      simp only [List.append_assoc]
    rw [hfw, hsplit, List.count_append, List.count_eq_zero_of_not_mem hnot]
    simp [List.count_cons, Resource, zap.Object, zap.String, zap.Int, zap.Namespace]

/-- C7, witness: the scenario of `TestCore`, the resource of the test and the field
`seconds` as contextual fields, `field_one` and `field_two` at the call site. -/
theorem C7_resource_forwarded_once_witness :
    (((WrapCore okSink).With [Resource (some res1)]).ret.With
        [zap.Duration "seconds" 1450000000]).ret.fields =
      [] ++ Resource (some res1) :: [zap.Duration "seconds" 1450000000] ∧
    Resource (some res1) =
      { Key := "resource", Typ := FieldType.ObjectMarshalerType,
        Interface := Payload.resourceWrapper (some res1) } ∧
    (Core.Write (((WrapCore okSink).With [Resource (some res1)]).ret.With
        [zap.Duration "seconds" 1450000000]).ret entry1
        [zap.String "field_one" "one", zap.Int8 "field_two" 2]).calls =
      [SinkCall.Write entry1
        ([zap.String "body" entry1.Message,
            zap.Int "severity" (levelToSeverity entry1.Level),
            Resource (some res1), zap.Namespace "attributes"] ++ []
          ++ [zap.Duration "seconds" 1450000000]
          ++ [zap.String "field_one" "one", zap.Int8 "field_two" 2])] ∧
    (forwarded (((WrapCore okSink).With [Resource (some res1)]).ret.With
        [zap.Duration "seconds" 1450000000]).ret entry1
        [zap.String "field_one" "one", zap.Int8 "field_two" 2]).count
          (Resource (some res1)) = 1 :=
  ⟨by decide,
    C7_resource_forwarded_once res1
      (((WrapCore okSink).With [Resource (some res1)]).ret.With
        [zap.Duration "seconds" 1450000000]).ret entry1 []
      [zap.Duration "seconds" 1450000000]
      [zap.String "field_one" "one", zap.Int8 "field_two" 2] (by decide) (by simp)
      (by decide) (by decide)⟩

/-! ## The attribute list -/

/-- C8, counterexample: with the resource fields of `res1` and `res2` as contextual fields
and one ordinary call-site field, the slot holds the field of `res2`; the field of `res1`
is in the merged input, is not the one in a slot, and is not after the marker. -/
theorem C8_counterexample :
    Resource (some res1) ∈
      ((WrapCore okSink).With [Resource (some res1), Resource (some res2)]).ret.fields
        ++ [zap.String "field_one" "one"] ∧
    Resource (some res1) ≠ Resource (some res2) ∧
    (Core.Write ((WrapCore okSink).With [Resource (some res1), Resource (some res2)]).ret
        entry1 [zap.String "field_one" "one"]).calls =
      [SinkCall.Write entry1
        ([zap.String "body" "testing 1234", zap.Int "severity" 9, Resource (some res2)]
          ++ [zap.Namespace "attributes"] ++ [zap.String "field_one" "one"])] ∧
    Resource (some res1) ∉ [zap.String "field_one" "one"] := by
  decide

/-- C8, amended: for every Write, the fields forwarded after the `attributes` namespace
marker (the first namespace field of the sequence) are exactly the fields of the merged
input that are not correlation fields, in their original relative order: the contextual
ones, in input order, then the call-site ones, in input order; the list is an
order-preserving sublist of the merged input. -/
theorem C8_attributes_in_merge_order (c : Core) (e : Entry) (inp : List Field) :
    ∃ head : List Field,
      (Core.Write c e inp).calls =
        [SinkCall.Write e
          (head ++ [zap.Namespace "attributes"]
            ++ (c.fields.filter (fun f => !isCorrelation f)
              ++ inp.filter (fun f => !isCorrelation f)))] ∧
      (∀ g ∈ head, g.Typ ≠ FieldType.NamespaceType) ∧
      (c.fields.filter (fun f => !isCorrelation f)
          ++ inp.filter (fun f => !isCorrelation f)).Sublist (c.fields ++ inp) ∧
      (∀ f, f ∈ c.fields.filter (fun f => !isCorrelation f)
              ++ inp.filter (fun f => !isCorrelation f) ↔
            f ∈ c.fields ++ inp ∧ isCorrelation f = false) := by
  refine ⟨_, ?_, head_no_namespace e (c.fields ++ inp), ?_, ?_⟩
  · rw [Write_calls, forwarded_split, List.filter_append]
  · exact List.Sublist.append (List.filter_sublist _) (List.filter_sublist _)
  · intro f
    rw [← List.filter_append, List.mem_filter]
    simp

/-- C9: in Write a field of the merged input is left out of the attribute list if and only
if it is a correlation field, and a field is a correlation field if and only if it has
(inline-marshaler type, key `trace_id`, `traceIDWrapper` payload) or (inline-marshaler
type, key `span_id`, `spanIDWrapper` payload) or (object-marshaler type, key `resource`,
`resourceWrapper` payload); so every field named `trace_id`, `span_id` or `resource` whose
payload is not of the matching wrapper type is forwarded after the `attributes` marker
and is not in a slot before it. -/
theorem C9_key_and_marker_jointly (c : Core) (e : Entry) (inp : List Field) :
    (∀ f : Field, isCorrelation f = true ↔
      (f.Typ = FieldType.InlineMarshalerType ∧ f.Key = "trace_id" ∧
        ∃ t, f.Interface = Payload.traceIDWrapper t) ∨
      (f.Typ = FieldType.InlineMarshalerType ∧ f.Key = "span_id" ∧
        ∃ s, f.Interface = Payload.spanIDWrapper s) ∨
      (f.Typ = FieldType.ObjectMarshalerType ∧ f.Key = "resource" ∧
        ∃ r, f.Interface = Payload.resourceWrapper r)) ∧
    ∃ head : List Field,
      (Core.Write c e inp).calls =
        [SinkCall.Write e
          (head ++ [zap.Namespace "attributes"]
            ++ (c.fields ++ inp).filter (fun f => !isCorrelation f))] ∧
      (∀ g ∈ head, g.Typ ≠ FieldType.NamespaceType) ∧
      (∀ f ∈ c.fields ++ inp,
        ((f.Key = "trace_id" ∧ ¬ ∃ t, f.Interface = Payload.traceIDWrapper t) ∨
         (f.Key = "span_id" ∧ ¬ ∃ s, f.Interface = Payload.spanIDWrapper s) ∨
         (f.Key = "resource" ∧ ¬ ∃ r, f.Interface = Payload.resourceWrapper r)) →
        f ∈ (c.fields ++ inp).filter (fun f => !isCorrelation f) ∧ f ∉ head) := by
  refine ⟨correlation_spelled, _, ?_, head_no_namespace e (c.fields ++ inp), ?_⟩
  · rw [Write_calls, forwarded_split]
  · intro f hf hkey
    have hnc : isCorrelation f = false := by
      cases hcf : isCorrelation f
      · rfl
      · exfalso
        rcases (correlation_spelled f).1 hcf with ⟨_, hk, hp⟩ | ⟨_, hk, hp⟩ | ⟨_, hk, hp⟩ <;>
          rcases hkey with ⟨hk2, hn⟩ | ⟨hk2, hn⟩ | ⟨hk2, hn⟩ <;>
          first
            | exact hn hp
            | (rw [hk] at hk2; exact absurd hk2 (by decide))
    refine ⟨?_, ?_⟩
    · rw [List.mem_filter]
      exact ⟨hf, by simp [hnc]⟩
    · intro hmem
      rw [List.mem_append] at hmem
      rcases hmem with h | h
      · simp only [List.mem_cons, List.mem_singleton, List.not_mem_nil, or_false] at h
        rcases h with rfl | rfl <;> simp [zap.String, zap.Int] at hkey
      · obtain ⟨k, hk⟩ := (mem_slots_iff _ f).1 h
        rw [(correlation_iff_kind f).2 ⟨k, (lastOf_mem _ _ f hk).1⟩] at hnc
        cases hnc

/-! ## Derivation -/

/-- C10: for every decorator `c` and field list `extra`, `c.With(extra)` returns a decorator
whose contextual fields are `c.fields` followed by `extra` (so their number is
`len(c.fields) + len(extra)`), whose inner core is the inner core of `c`, and no method of
the inner core is called. -/
theorem C10_with_appends (c : Core) (extra : List Field) :
    (Core.With c extra).ret.fields = c.fields ++ extra ∧
    (Core.With c extra).ret.fields.length = c.fields.length + extra.length ∧
    (Core.With c extra).ret.next = c.next ∧
    (Core.With c extra).calls = [] := by
  simp [Core.With]

/-! ## Severity -/

/-- C12: for every level value, `levelToSeverity` returns the number of the table: 5 for
debug, 9 for info, 13 for warn, 17 for error, 21 for panic and for fatal, and 9 for every
other level. -/
theorem C12_severity_table (l : Level) :
    levelToSeverity DebugLevel = 5 ∧ levelToSeverity InfoLevel = 9 ∧
    levelToSeverity WarnLevel = 13 ∧ levelToSeverity ErrorLevel = 17 ∧
    levelToSeverity PanicLevel = 21 ∧ levelToSeverity FatalLevel = 21 ∧
    (l ≠ DebugLevel ∧ l ≠ InfoLevel ∧ l ≠ WarnLevel ∧ l ≠ ErrorLevel ∧ l ≠ PanicLevel ∧
      l ≠ FatalLevel → levelToSeverity l = 9) := by
  refine ⟨by decide, by decide, by decide, by decide, by decide, by decide, ?_⟩
  rintro ⟨h1, h2, h3, h4, h5, h6⟩
  simp [levelToSeverity, h1, h2, h3, h4, h5, h6]

/-- C13, the code at a failing input: for `DPanicLevel`, and for the unnamed level 127,
`levelEncoder` appends no string to the encoder, where the table asks for `INFO`; the
sibling `levelToSeverity` gives these levels the default 9 of `INFO`. The six named
levels get their text. -/
theorem C13_level_text_missing_default :
    levelEncoder DPanicLevel [] = [] ∧ levelEncoder 127 [] = [] ∧
    levelToSeverity DPanicLevel = 9 ∧ levelToSeverity 127 = 9 ∧
    levelEncoder DebugLevel [] = ["DEBUG"] ∧ levelEncoder InfoLevel [] = ["INFO"] ∧
    levelEncoder WarnLevel [] = ["WARN"] ∧ levelEncoder ErrorLevel [] = ["ERROR"] ∧
    levelEncoder PanicLevel [] = ["FATAL"] ∧ levelEncoder FatalLevel [] = ["FATAL"] := by
  decide

/-- C18, counterexample: `ErrorLevel` is below `DPanicLevel`, both lie between `DebugLevel`
and `FatalLevel`, and the severity of the first, 17, is above that of the second, 9. -/
theorem C18_counterexample :
    DebugLevel ≤ ErrorLevel ∧ ErrorLevel ≤ DPanicLevel ∧ DPanicLevel ≤ FatalLevel ∧
    levelToSeverity ErrorLevel = 17 ∧ levelToSeverity DPanicLevel = 9 ∧
    ¬ (levelToSeverity ErrorLevel ≤ levelToSeverity DPanicLevel) := by
  decide

/-- C18, amended: `levelToSeverity` is monotone over the levels it names: for all levels
`a ≤ b` among debug, info, warn, error, panic and fatal,
`levelToSeverity a ≤ levelToSeverity b`. -/
theorem C18_monotone_on_named_levels (a b : Level) (ha : recognisedLevel a = true)
    (hb : recognisedLevel b = true) (hab : a ≤ b) :
    levelToSeverity a ≤ levelToSeverity b := by
  simp only [recognisedLevel, Bool.or_eq_true, beq_iff_eq] at ha hb
  rcases ha with ((((rfl | rfl) | rfl) | rfl) | rfl) | rfl <;>
    rcases hb with ((((rfl | rfl) | rfl) | rfl) | rfl) | rfl <;>
    first
      | decide
      | (exfalso; revert hab; decide)

/-- C18, witness: the amended statement at warn and panic. -/
theorem C18_monotone_on_named_levels_witness :
    recognisedLevel WarnLevel = true ∧ recognisedLevel PanicLevel = true ∧
    WarnLevel ≤ PanicLevel ∧ levelToSeverity WarnLevel ≤ levelToSeverity PanicLevel :=
  ⟨by decide, by decide, by decide,
    C18_monotone_on_named_levels WarnLevel PanicLevel (by decide) (by decide) (by decide)⟩

/-! ## Pass-through to the inner core -/

/-- C14: for every decorator, entry and field list, `Core.Write` makes exactly one call on
the inner core, a `Write` with the entry it was given, and returns what that call
returns (so `nil` exactly when the inner core returned `nil`); `Core.Sync` makes one
`Sync` call and returns its result. -/
theorem C14_write_and_sync_pass_through (c : Core) (e : Entry) (inp : List Field) :
    (∃ out : List Field,
      (Core.Write c e inp).calls = [SinkCall.Write e out] ∧
      (Core.Write c e inp).ret = c.next.Write e out ∧
      ((Core.Write c e inp).ret = none ↔ c.next.Write e out = none)) ∧
    (Core.Sync c).calls = [SinkCall.Sync] ∧
    (Core.Sync c).ret = c.next.Sync :=
  ⟨⟨forwarded c e inp, rfl, rfl, Iff.rfl⟩, rfl, rfl⟩

/-! ## The resource serializer -/

theorem foldl_marshal (l : List attribute.KeyValue) (enc : List EncoderCall) :
    l.foldl (fun enc a =>
      match a.Value with
      | attribute.Value.BOOL v => enc ++ [EncoderCall.AddBool a.Key v]
      | attribute.Value.INT64 v => enc ++ [EncoderCall.AddInt64 a.Key v]
      | attribute.Value.FLOAT64 v => enc ++ [EncoderCall.AddFloat64 a.Key v]
      | attribute.Value.STRING v => enc ++ [EncoderCall.AddString a.Key v]
      | attribute.Value.BOOLSLICE v => zap.Bools.AddTo a.Key v enc
      | attribute.Value.INT64SLICE v => zap.Int64s.AddTo a.Key v enc
      | attribute.Value.FLOAT64SLICE v => zap.Float64s.AddTo a.Key v enc
      | attribute.Value.STRINGSLICE v => zap.Strings.AddTo a.Key v enc
      | attribute.Value.INVALID => enc) enc = enc ++ l.filterMap entryOf := by
  induction l generalizing enc with
  | nil => simp
  | cons a l ih =>
    rw [List.foldl_cons, ih]
    rcases a with ⟨k, v⟩
    cases v <;>
      simp [entryOf, List.filterMap_cons, zap.Bools.AddTo, zap.Int64s.AddTo,
        zap.Float64s.AddTo, zap.Strings.AddTo]

/-- C15: for every resource, `resourceWrapper.MarshalLogObject` returns no error (for a nil
resource it adds nothing) and adds to the encoder, in the order of the attribute list, one entry for each attribute of type
bool, int64, float64, string or a slice of these (the encoder method of the type, with the
key and the value of the attribute) and nothing for an attribute of another type; so the
number of entries added is the number of attributes of a supported type. -/
theorem C15_resource_serializer (res : resource.Resource) (enc : List EncoderCall) :
    (resourceWrapper.MarshalLogObject (some res) enc).2 = none ∧
    resourceWrapper.MarshalLogObject none enc = (enc, none) ∧
    (resourceWrapper.MarshalLogObject (some res) enc).1 =
      enc ++ res.Attributes.filterMap entryOf ∧
    (res.Attributes.filterMap entryOf).length =
      (res.Attributes.filter supportedType).length ∧
    (∀ a ∈ res.Attributes, supportedType a = false → entryOf a = none) ∧
    resourceWrapper.MarshalLogObject (some res3) [] =
      ([EncoderCall.AddBool "b" true, EncoderCall.AddInt64 "i" (-7),
        EncoderCall.AddString "s" "v", EncoderCall.AddFloat64 "f" 0x4050000000000000,
        EncoderCall.AddArray "bs" (ArrayMarshaler.bools [true, false]),
        EncoderCall.AddArray "is" (ArrayMarshaler.int64s [1, 2]),
        EncoderCall.AddArray "fs" (ArrayMarshaler.float64s [0]),
        EncoderCall.AddArray "ss" (ArrayMarshaler.stringArray ["a", "b"])], none) := by
  refine ⟨rfl, rfl, ?_, ?_, ?_, by decide⟩
  · simp only [resourceWrapper.MarshalLogObject]
    exact foldl_marshal res.Attributes enc
  · induction res.Attributes with
    | nil => rfl
    | cons a l ih =>
      rcases a with ⟨k, v⟩
      cases v <;> simp [List.filterMap_cons, List.filter_cons, entryOf, supportedType, ih]
  · intro a _ h
    rcases a with ⟨k, v⟩
    cases v <;> simp_all [entryOf, supportedType]

/-! ## Derivation composes -/

/-- C19: for every decorator `c` and field lists `a`, `b`: `c.With(a).With(b)` has the
contextual fields and the inner core of `c.With(a ++ b)`; `c.With` of the empty list has
the contextual fields of `c`; and for every entry and call-site fields the two decorators
of each pair make the same call, with the same field sequence, on the inner core. -/
theorem C19_with_composes (c : Core) (a b : List Field) (e : Entry) (inp : List Field) :
    (Core.With (Core.With c a).ret b).ret.fields = (Core.With c (a ++ b)).ret.fields ∧
    (Core.With (Core.With c a).ret b).ret.next = (Core.With c (a ++ b)).ret.next ∧
    (Core.With c []).ret.fields = c.fields ∧
    (Core.Write (Core.With (Core.With c a).ret b).ret e inp).calls =
      (Core.Write (Core.With c (a ++ b)).ret e inp).calls ∧
    (Core.Write (Core.With c []).ret e inp).calls = (Core.Write c e inp).calls := by
  have h1 : (Core.With (Core.With c a).ret b).ret = (Core.With c (a ++ b)).ret := by
    simp [Core.With, List.append_assoc]
  have h2 : (Core.With c []).ret = c := by
    simp [Core.With]
  rw [h1, h2]
  simp

/-! ## Slices in memory: allocation and in-place writes -/

theorem array_append_left (h t : Heap) (a : Nat) (ha : a < h.length) :
    Heap.array (h ++ t) a = Heap.array h a := by
  simp [Heap.array, List.getD_eq_getElem?_getD, List.getElem?_append_left ha]

theorem array_append_length (h t : Heap) (x : List Field) :
    Heap.array (h ++ x :: t) h.length = x := by
  have : (h ++ x :: t)[h.length]? = some x := by
    rw [List.getElem?_append_right (Nat.le_refl _)]
    simp
  simp [Heap.array, List.getD_eq_getElem?_getD, this]

theorem set_append_length (h t : Heap) (x y : List Field) :
    (h ++ x :: t).set h.length y = h ++ y :: t := by
  simp [List.set_append]

theorem read_length (h : Heap) (s : Slice) (hs : s.valid h) :
    (Heap.read h s).length = s.len := by
  obtain ⟨h1, h2⟩ := hs
  simp only [Heap.read, List.length_take, List.length_drop]
  rcases h2 with h2 | ⟨_, h2⟩ <;> omega

theorem read_append_left (h t : Heap) (s : Slice) (hs : s.valid h) :
    Heap.read (h ++ t) s = Heap.read h s := by
  obtain ⟨h1, h2⟩ := hs
  rcases h2 with h2 | ⟨h2, _⟩
  · have : s.len = 0 := by omega
    simp [Heap.read, this]
  · simp [Heap.read, array_append_left h t s.arr h2]

theorem valid_append (h t : Heap) (s : Slice) (hs : s.valid h) : s.valid (h ++ t) := by
  obtain ⟨h1, h2⟩ := hs
  refine ⟨h1, ?_⟩
  rcases h2 with h2 | ⟨h2, h3⟩
  · exact Or.inl h2
  · right
    rw [array_append_left h t s.arr h2]
    exact ⟨by simp; omega, h3⟩

theorem deref_append_left (h t : Heap) (p : Ptr) (hp : p.arr < h.length) :
    Heap.deref (h ++ t) p = Heap.deref h p := by
  simp [Heap.deref, array_append_left h t p.arr hp]

theorem append_inplace (h t : Heap) (C R xs : List Field) (L : Nat)
    (hcap : C.length + xs.length ≤ L) :
    Heap.append (h ++ (C ++ R) :: t) { arr := h.length, off := 0, len := C.length, cap := L } xs
      = (h ++ (C ++ xs ++ R.drop xs.length) :: t,
          { arr := h.length, off := 0, len := C.length + xs.length, cap := L }) := by
  simp only [Heap.append, hcap, if_true, array_append_length, set_append_length, Nat.zero_add]
  congr 3
  simp [List.take_append_eq_append_take, List.drop_append_eq_append_drop]

theorem read_inplace (h t : Heap) (C R : List Field) (L : Nat) :
    Heap.read (h ++ (C ++ R) :: t) { arr := h.length, off := 0, len := C.length, cap := L } = C := by
  simp [Heap.read, array_append_length]

theorem append_inplace_len (h t : Heap) (C R xs : List Field) (L k : Nat) (hk : k = C.length)
    (hcap : k + xs.length ≤ L) :
    Heap.append (h ++ (C ++ R) :: t) { arr := h.length, off := 0, len := k, cap := L } xs
      = (h ++ (C ++ xs ++ R.drop xs.length) :: t,
          { arr := h.length, off := 0, len := k + xs.length, cap := L }) := by
  subst hk
  exact append_inplace h t C R xs L hcap

theorem With_closed (h : Heap) (c : Mem.Core) (fs : Slice) (hc : c.fields.valid h)
    (hf : fs.valid h) :
    Mem.Core.With h c fs =
      (h ++ [Heap.read h c.fields ++ Heap.read h fs],
        { next := c.next,
          fields := { arr := h.length, off := 0, len := c.fields.len + fs.len,
                      cap := c.fields.len + fs.len } }) := by
  have hP := read_length h c.fields hc
  have hF := read_length h fs hf
  simp only [Mem.Core.With, Heap.make]
  rw [read_append_left h _ c.fields hc]
  have h1 := append_inplace_len h [] [] (List.replicate (c.fields.len + fs.len) ({} : Field))
    (Heap.read h c.fields) (c.fields.len + fs.len) 0 rfl (by omega)
  simp only [List.nil_append] at h1
  rw [h1]
  simp only
  rw [read_append_left h _ fs hf]
  have h2 := append_inplace_len h [] (Heap.read h c.fields)
    (List.drop (Heap.read h c.fields).length
      (List.replicate (c.fields.len + fs.len) ({} : Field)))
    (Heap.read h fs) (c.fields.len + fs.len) (0 + (Heap.read h c.fields).length)
    (by omega) (by omega)
  rw [h2]
  simp [hP, hF]

/-! ## The loop of `Core.Write` on memory simulates the loop on values -/

theorem mem_visit_eq (st : Mem.Locals) (f : Ptr) :
    Mem.Core.Write.visit st f =
      if isSpanField (Heap.deref st.heap f) then { st with spanID := some f }
      else if isTraceField (Heap.deref st.heap f) then { st with traceID := some f }
      else if isResourceField (Heap.deref st.heap f) then { st with resource := some f }
      else st.push f := by
  unfold Mem.Core.Write.visit
  generalize Heap.deref st.heap f = fv
  rcases fv with ⟨k, t, n, s, p⟩
  cases t <;> cases p <;>
    simp [isSpanField, isTraceField, isResourceField, spanIDKey, traceIDKey, resourceKey]
  all_goals split_ifs
  all_goals simp_all

theorem range_getD (A : List Field) (off len : Nat) (hA : off + len ≤ A.length) :
    (List.range len).map (fun i => A.getD (off + i) ({} : Field)) = (A.drop off).take len := by
  induction len with
  | zero => simp
  | succ n ih =>
    rw [List.range_succ, List.map_append, ih (by omega), List.take_succ]
    congr 1
    have hlt : off + n < A.length := by omega
    simp [List.getD_eq_getElem?_getD, List.getElem?_drop, List.getElem?_eq_getElem hlt]

theorem ptrs_deref (h : Heap) (s : Slice) (hs : s.valid h) :
    ((List.range s.len).map s.ptr).map (Heap.deref h) = Heap.read h s := by
  obtain ⟨h1, h2⟩ := hs
  rcases h2 with h2 | ⟨_, h3⟩
  · have : s.len = 0 := by omega
    simp [Heap.read, this]
  · rw [List.map_map]
    exact range_getD (Heap.array h s.arr) s.off s.len (by omega)

theorem ptrs_arr (h : Heap) (s : Slice) (hs : s.valid h) :
    ∀ p ∈ (List.range s.len).map s.ptr, p.arr < h.length := by
  intro p hp
  simp only [List.mem_map, List.mem_range] at hp
  obtain ⟨i, hi, rfl⟩ := hp
  obtain ⟨h1, h2⟩ := hs
  rcases h2 with h2 | ⟨h2, _⟩
  · omega
  · exact h2

theorem map_deref_append (h t : Heap) (o : Option Ptr)
    (ho : ∀ p, o = some p → p.arr < h.length) :
    o.map (Heap.deref (h ++ t)) = o.map (Heap.deref h) := by
  cases o with
  | none => rfl
  | some p => simp [deref_append_left h t p (ho p rfl)]

theorem read_inplace_len (h t : Heap) (C R : List Field) (L k : Nat) (hk : k = C.length) :
    Heap.read (h ++ (C ++ R) :: t) { arr := h.length, off := 0, len := k, cap := L } = C := by
  subst hk
  exact read_inplace h t C R L

theorem abs_of (h : Heap) (O C R : List Field) (L : Nat) (st : Mem.Locals)
    (hheap : st.heap = h ++ [O, C ++ R])
    (hattr : st.attributes = { arr := h.length + 1, off := 0, len := C.length, cap := L })
    (hT : ∀ p, st.traceID = some p → p.arr < h.length)
    (hS : ∀ p, st.spanID = some p → p.arr < h.length)
    (hR : ∀ p, st.resource = some p → p.arr < h.length) :
    st.abs = { traceID := st.traceID.map (Heap.deref h),
               spanID := st.spanID.map (Heap.deref h),
               resource := st.resource.map (Heap.deref h),
               attributes := C } := by
  unfold Mem.Locals.abs
  rw [hheap, hattr, map_deref_append h _ _ hT, map_deref_append h _ _ hS,
    map_deref_append h _ _ hR]
  have hr2 := read_inplace_len (h ++ [O]) [] C R L C.length rfl
  simp only [List.append_assoc, List.singleton_append, List.length_append,
    List.length_singleton] at hr2
  rw [hr2]

theorem inv_abs (h : Heap) (O C : List Field) (L : Nat) (st : Mem.Locals)
    (hi : st.inv h O L C) :
    st.abs = { traceID := st.traceID.map (Heap.deref h),
               spanID := st.spanID.map (Heap.deref h),
               resource := st.resource.map (Heap.deref h),
               attributes := C } := by
  obtain ⟨⟨R, hheap⟩, hattr, hT, hS, hR⟩ := hi
  exact abs_of h O C R L st hheap hattr hT hS hR

theorem inv_deref (h : Heap) (O C : List Field) (L : Nat) (st : Mem.Locals)
    (hi : st.inv h O L C) (p : Ptr) (hp : p.arr < h.length) :
    Heap.deref st.heap p = Heap.deref h p := by
  obtain ⟨⟨R, hheap⟩, _⟩ := hi
  rw [hheap]
  exact deref_append_left h _ p hp

theorem visit_step (h : Heap) (O C : List Field) (L : Nat) (st : Mem.Locals) (f : Ptr)
    (hi : st.inv h O L C) (hcap : C.length + 1 ≤ L) (hf : f.arr < h.length) :
    ∃ C', (Mem.Core.Write.visit st f).inv h O L C' ∧ C'.length ≤ C.length + 1 ∧
      (Mem.Core.Write.visit st f).abs = Core.Write.visit st.abs (Heap.deref h f) := by
  have habs := inv_abs h O C L st hi
  have hd := inv_deref h O C L st hi f hf
  obtain ⟨⟨R, hheap⟩, hattr, hT, hS, hR⟩ := hi
  rw [mem_visit_eq, visit_eq, hd]
  cases h1 : isSpanField (Heap.deref h f)
  swap
  · simp only [if_true]
    have hi2 : Mem.Locals.inv { st with spanID := some f } h O L C :=
      ⟨⟨R, hheap⟩, hattr, hT, by intro p hp; cases hp; exact hf, hR⟩
    refine ⟨C, hi2, by omega, ?_⟩
    rw [inv_abs h O C L _ hi2, habs]
    rfl
  · cases h2 : isTraceField (Heap.deref h f)
    swap
    · simp only [Bool.false_eq_true, if_true, if_false]
      have hi2 : Mem.Locals.inv { st with traceID := some f } h O L C :=
        ⟨⟨R, hheap⟩, hattr, by intro p hp; cases hp; exact hf, hS, hR⟩
      refine ⟨C, hi2, by omega, ?_⟩
      rw [inv_abs h O C L _ hi2, habs]
      rfl
    · cases h3 : isResourceField (Heap.deref h f)
      swap
      · simp only [Bool.false_eq_true, if_true, if_false]
        have hi2 : Mem.Locals.inv { st with resource := some f } h O L C :=
          ⟨⟨R, hheap⟩, hattr, hT, hS, by intro p hp; cases hp; exact hf⟩
        refine ⟨C, hi2, by omega, ?_⟩
        rw [inv_abs h O C L _ hi2, habs]
        rfl
      · simp only [Bool.false_eq_true, if_false]
        have happ := append_inplace_len (h ++ [O]) [] C R [Heap.deref h f] L C.length rfl
          (by simpa using hcap)
        simp only [List.append_assoc, List.singleton_append, List.length_append,
          List.length_singleton] at happ
        have hpush : st.push f =
            { st with heap := h ++ [O, (C ++ [Heap.deref h f]) ++ R.drop 1],
                      attributes := { arr := h.length + 1, off := 0,
                                      len := (C ++ [Heap.deref h f]).length, cap := L } } := by
          simp only [Mem.Locals.push, hd]
          rw [hheap, hattr, happ]
          simp
        have hi2 : (st.push f).inv h O L (C ++ [Heap.deref h f]) := by
          rw [hpush]
          exact ⟨⟨R.drop 1, rfl⟩, rfl, hT, hS, hR⟩
        refine ⟨C ++ [Heap.deref h f], hi2, by simp, ?_⟩
        rw [inv_abs h O _ L _ hi2, hpush, habs]

theorem fold_steps (h : Heap) (O : List Field) (L : Nat) (ps : List Ptr) :
    ∀ (st : Mem.Locals) (C : List Field), st.inv h O L C → C.length + ps.length ≤ L →
      (∀ p ∈ ps, p.arr < h.length) →
      ∃ C', (ps.foldl Mem.Core.Write.visit st).inv h O L C' ∧
        (ps.foldl Mem.Core.Write.visit st).abs =
          (ps.map (Heap.deref h)).foldl Core.Write.visit st.abs := by
  induction ps with
  | nil =>
    intro st C hi _ _
    exact ⟨C, hi, rfl⟩
  | cons p ps ih =>
    intro st C hi hcap hps
    obtain ⟨C1, hi1, hlen, habs⟩ :=
      visit_step h O C L st p hi (by simp at hcap; omega) (hps p (List.mem_cons_self _ _))
    obtain ⟨C2, hi2, habs2⟩ := ih (Mem.Core.Write.visit st p) C1 hi1
      (by simp at hcap; omega) (fun q hq => hps q (List.mem_cons_of_mem _ hq))
    refine ⟨C2, ?_, ?_⟩
    · simpa using hi2
    · simp only [List.foldl_cons, List.map_cons]
      rw [habs2, habs]

theorem lastOf_toList_length (p : Field → Bool) (m : List Field) :
    (lastOf p m).toList.length ≤ (m.filter p).length := by
  unfold lastOf
  cases hl : m.filter p with
  | nil => simp
  | cons a l =>
    cases hg : (a :: l).getLast? with
    | none => simp
    | some g => simp

theorem filter_lengths (m : List Field) :
    (m.filter isTraceField).length + (m.filter isSpanField).length
      + (m.filter isResourceField).length
      + (m.filter (fun f => !isCorrelation f)).length = m.length := by
  induction m with
  | nil => rfl
  | cons f m ih =>
    have hd := kinds_disjoint f
    have hc : isCorrelation f = (isTraceField f || isSpanField f || isResourceField f) := rfl
    simp only [List.filter_cons, hc]
    cases ht : isTraceField f <;> cases hs : isSpanField f <;> cases hr : isResourceField f <;>
      simp_all <;> omega

theorem slots_attrs_le (m : List Field) :
    (lastOf isTraceField m).toList.length + (lastOf isSpanField m).toList.length
      + (lastOf isResourceField m).toList.length
      + (m.filter (fun f => !isCorrelation f)).length ≤ m.length := by
  have h1 := lastOf_toList_length isTraceField m
  have h2 := lastOf_toList_length isSpanField m
  have h3 := lastOf_toList_length isResourceField m
  have h4 := filter_lengths m
  omega

theorem Write_eq (c : Core) (e : Entry) (inp : List Field) :
    Core.Write c e inp =
      { calls := [SinkCall.Write e (forwarded c e inp)],
        ret := c.next.Write e (forwarded c e inp) } := by
  rfl

theorem appendDeref_inplace (h t : Heap) (C R : List Field) (L k : Nat) (o : Option Ptr)
    (hk : k = C.length) (hcap : k + (o.map (Heap.deref h)).toList.length ≤ L)
    (ho : ∀ p, o = some p → p.arr < h.length) :
    Mem.appendDeref (h ++ (C ++ R) :: t, { arr := h.length, off := 0, len := k, cap := L }) o
      = (h ++ (C ++ (o.map (Heap.deref h)).toList
              ++ R.drop (o.map (Heap.deref h)).toList.length) :: t,
         { arr := h.length, off := 0, len := k + (o.map (Heap.deref h)).toList.length,
           cap := L }) := by
  cases o with
  | none => simp [Mem.appendDeref]
  | some p =>
    simp only [Mem.appendDeref, deref_append_left h _ p (ho p rfl)]
    exact append_inplace_len h t C R [Heap.deref h p] L k hk (by simpa using hcap)

theorem scan_as_fold (st : Mem.Locals) (a b : Slice) :
    Mem.Core.Write.scan st [a, b] =
      (((List.range a.len).map a.ptr) ++ ((List.range b.len).map b.ptr)).foldl
        Mem.Core.Write.visit st := by
  simp [Mem.Core.Write.scan, List.foldl_map]

theorem pure_scan_as_fold (a b : List Field) :
    Core.Write.scan [a, b] = (a ++ b).foldl Core.Write.visit {} := by
  simp [Core.Write.scan]

/-! ## `Core.Write` on memory refines `Core.Write` on values -/

theorem append_pair (r : Heap × Slice) (h t : Heap) (C R xs : List Field) (L k : Nat)
    (hr : r = (h ++ (C ++ R) :: t, { arr := h.length, off := 0, len := k, cap := L }))
    (hk : k = C.length) (hcap : C.length + xs.length ≤ L) :
    Heap.append r.1 r.2 xs =
      (h ++ ((C ++ xs) ++ R.drop xs.length) :: t,
        { arr := h.length, off := 0, len := (C ++ xs).length, cap := L }) := by
  subst hr
  subst hk
  simp only [List.length_append]
  exact append_inplace h t C R xs L hcap

theorem appendDeref_pair (r : Heap × Slice) (h t : Heap) (C R : List Field) (L k : Nat)
    (o : Option Ptr)
    (hr : r = (h ++ (C ++ R) :: t, { arr := h.length, off := 0, len := k, cap := L }))
    (hk : k = C.length) (hcap : C.length + (o.map (Heap.deref h)).toList.length ≤ L)
    (ho : ∀ p, o = some p → p.arr < h.length) :
    Mem.appendDeref r o =
      (h ++ ((C ++ (o.map (Heap.deref h)).toList)
              ++ R.drop (o.map (Heap.deref h)).toList.length) :: t,
        { arr := h.length, off := 0, len := (C ++ (o.map (Heap.deref h)).toList).length,
          cap := L }) := by
  subst hr
  subst hk
  simp only [List.length_append]
  exact appendDeref_inplace h t C R L C.length o rfl hcap ho

theorem Write_refines (h : Heap) (c : Mem.Core) (e : Entry) (inp : Slice)
    (hc : c.fields.valid h) (hi : inp.valid h) :
    ∃ O A, Mem.Core.Write h c e inp =
      (h ++ [O, A],
        Core.Write { next := c.next, fields := Heap.read h c.fields } e (Heap.read h inp)) := by
  have hla := read_length h c.fields hc
  have hlb := read_length h inp hi
  -- the prefix of `out`
  let body := zap.String "body" e.Message
  let sev := zap.Int "severity" (levelToSeverity e.Level)
  let L := inp.len + 3 + c.fields.len
  let out0 := Heap.make h 0 L
  let out1 := Heap.append out0.1 out0.2 [body]
  let out2 := Heap.append out1.1 out1.2 [sev]
  have h0 : out0 = (h ++ ([] ++ List.replicate L ({} : Field)) :: [],
      { arr := h.length, off := 0, len := 0, cap := L }) := rfl
  have h1 := append_pair out0 h [] [] _ [body] L 0 h0 rfl (by simp [L]; omega)
  have h2 := append_pair out1 h [] _ _ [sev] L _ h1 rfl (by simp [L]; omega)
  -- the loop
  obtain ⟨RO, hRO⟩ : ∃ RO, out2 = (h ++ [([body, sev] : List Field) ++ RO],
      { arr := h.length, off := 0, len := 2, cap := L }) := ⟨_, h2⟩
  obtain ⟨st0, hst0⟩ : ∃ st0 : Mem.Locals,
      st0 = { heap := (Heap.make out2.1 0 L).1, attributes := (Heap.make out2.1 0 L).2 } :=
    ⟨_, rfl⟩
  obtain ⟨st, hstdef⟩ : ∃ st, st = Mem.Core.Write.scan st0 [c.fields, inp] := ⟨_, rfl⟩
  have hinv0 : st0.inv h ([body, sev] ++ RO) L [] := by
    rw [hst0, hRO]
    refine ⟨⟨List.replicate L ({} : Field), by simp [Heap.make]⟩, by simp [Heap.make],
      ?_, ?_, ?_⟩
    · intro p hp
      cases hp
    · intro p hp
      cases hp
    · intro p hp
      cases hp
  have hps : ∀ p ∈ (List.range c.fields.len).map c.fields.ptr
      ++ (List.range inp.len).map inp.ptr, p.arr < h.length := by
    intro p hp
    rw [List.mem_append] at hp
    rcases hp with hp | hp
    · exact ptrs_arr h c.fields hc p hp
    · exact ptrs_arr h inp hi p hp
  obtain ⟨C, hinv, habs⟩ := fold_steps h ([body, sev] ++ RO) L _ st0 [] hinv0
    (by simp [L]; omega) hps
  rw [← scan_as_fold, ← hstdef] at hinv habs
  have h0abs : st0.abs = ({} : Slots) := by
    rw [inv_abs h _ [] L st0 hinv0, hst0]
    rfl
  rw [List.map_append, ptrs_deref h c.fields hc, ptrs_deref h inp hi, h0abs,
    ← pure_scan_as_fold, scan_eq] at habs
  rw [inv_abs h _ C L _ hinv] at habs
  have hT : Option.map (Heap.deref h) st.traceID
      = lastOf isTraceField (Heap.read h c.fields ++ Heap.read h inp) :=
    congrArg Slots.traceID habs
  have hS : Option.map (Heap.deref h) st.spanID
      = lastOf isSpanField (Heap.read h c.fields ++ Heap.read h inp) :=
    congrArg Slots.spanID habs
  have hR : Option.map (Heap.deref h) st.resource
      = lastOf isResourceField (Heap.read h c.fields ++ Heap.read h inp) :=
    congrArg Slots.resource habs
  have hC : C = (Heap.read h c.fields ++ Heap.read h inp).filter (fun f => !isCorrelation f) :=
    congrArg Slots.attributes habs
  have hbound := slots_attrs_le (Heap.read h c.fields ++ Heap.read h inp)
  rw [← hT, ← hS, ← hR, ← hC, List.length_append, hla, hlb] at hbound
  obtain ⟨⟨RA, hheap⟩, hattr, hpT, hpS, hpR⟩ := hinv
  -- the rest of `out`
  obtain ⟨o3, ho3⟩ : ∃ o3, o3 = Mem.appendDeref (st.heap, out2.2) st.traceID := ⟨_, rfl⟩
  obtain ⟨o4, ho4⟩ : ∃ o4, o4 = Mem.appendDeref o3 st.spanID := ⟨_, rfl⟩
  obtain ⟨o5, ho5⟩ : ∃ o5, o5 = Mem.appendDeref o4 st.resource := ⟨_, rfl⟩
  obtain ⟨o6, ho6⟩ : ∃ o6, o6 = Heap.append o5.1 o5.2 [zap.Namespace "attributes"] :=
    ⟨_, rfl⟩
  obtain ⟨o7, ho7⟩ : ∃ o7, o7 = Heap.append o6.1 o6.2 (Heap.read o6.1 st.attributes) :=
    ⟨_, rfl⟩
  have hW : Mem.Core.Write h c e inp =
      (o7.1, { calls := [SinkCall.Write e (Heap.read o7.1 o7.2)],
               ret := c.next.Write e (Heap.read o7.1 o7.2) }) := by
    rw [ho7, ho6, ho5, ho4, ho3, hstdef, hst0]
    rfl
  have hst : (st.heap, out2.2) = (h ++ (([body, sev] : List Field) ++ RO) :: [C ++ RA],
      { arr := h.length, off := 0, len := 2, cap := L }) := by
    rw [hheap, hRO]
  have h3 := appendDeref_pair _ h _ _ _ L 2 st.traceID hst rfl
    (by simp [L]; omega) hpT
  rw [← ho3] at h3
  have h4 := appendDeref_pair o3 h _ _ _ L _ st.spanID h3 rfl
    (by simp [L]; omega) hpS
  rw [← ho4] at h4
  have h5 := appendDeref_pair o4 h _ _ _ L _ st.resource h4 rfl
    (by simp [L]; omega) hpR
  rw [← ho5] at h5
  have h6 := append_pair o5 h _ _ _ [zap.Namespace "attributes"] L _ h5 rfl
    (by simp [L]; omega)
  rw [← ho6] at h6
  have hread : Heap.read o6.1 st.attributes = C := by
    rw [h6, hattr]
    have := read_inplace_len (h ++ [([body, sev] : List Field)
      ++ (Option.map (Heap.deref h) st.traceID).toList
      ++ (Option.map (Heap.deref h) st.spanID).toList
      ++ (Option.map (Heap.deref h) st.resource).toList ++ [zap.Namespace "attributes"]
      ++ List.drop [zap.Namespace "attributes"].length
          (List.drop (Option.map (Heap.deref h) st.resource).toList.length
            (List.drop (Option.map (Heap.deref h) st.spanID).toList.length
              (List.drop (Option.map (Heap.deref h) st.traceID).toList.length RO)))])
      [] C RA L C.length rfl
    simpa using this
  have h7 := append_pair o6 h _ _ _ (Heap.read o6.1 st.attributes) L _ h6 rfl
    (by rw [hread]; simp [L]; omega)
  rw [← ho7] at h7
  rw [hW, h7, Write_eq, forwarded_eq]
  refine ⟨_, _, Prod.ext rfl ?_⟩
  simp only [read_inplace_len h _ _ _ L _ rfl]
  rw [hread, hT, hS, hR, hC]

theorem With_spec (h : Heap) (c : Mem.Core) (fs : Slice) (hc : c.fields.valid h)
    (hf : fs.valid h) :
    (∃ A, (Mem.Core.With h c fs).1 = h ++ [A]) ∧
    (Mem.Core.With h c fs).2.fields.valid (Mem.Core.With h c fs).1 ∧
    Heap.read (Mem.Core.With h c fs).1 (Mem.Core.With h c fs).2.fields =
      Heap.read h c.fields ++ Heap.read h fs ∧
    (Mem.Core.With h c fs).2.next = c.next := by
  have hP := read_length h c.fields hc
  have hF := read_length h fs hf
  rw [With_closed h c fs hc hf]
  refine ⟨⟨_, rfl⟩, ?_, ?_, rfl⟩
  · refine ⟨Nat.le_refl _, Or.inr ⟨by simp, ?_⟩⟩
    have := array_append_length h [] (Heap.read h c.fields ++ Heap.read h fs)
    simp only [this, List.length_append, hP, hF]
    omega
  · have := read_inplace_len h [] (Heap.read h c.fields ++ Heap.read h fs) [] 
      (c.fields.len + fs.len) (c.fields.len + fs.len) (by simp [hP, hF])
    simpa using this

theorem Write_frame (h : Heap) (c : Mem.Core) (e : Entry) (inp : Slice)
    (hc : c.fields.valid h) (hi : inp.valid h) (s : Slice) (hs : s.valid h) :
    Heap.read (Mem.Core.Write h c e inp).1 s = Heap.read h s ∧
    s.valid (Mem.Core.Write h c e inp).1 := by
  obtain ⟨O, A, hW⟩ := Write_refines h c e inp hc hi
  rw [hW]
  exact ⟨read_append_left h _ s hs, valid_append h _ s hs⟩

theorem forwarded_mem (c : Core) (e : Entry) (inp : List Field) :
    ∀ x ∈ forwarded c e inp,
      x = zap.String "body" e.Message ∨ x = zap.Int "severity" (levelToSeverity e.Level) ∨
      x = zap.Namespace "attributes" ∨ x ∈ c.fields ∨ x ∈ inp := by
  intro x hx
  rw [forwarded_split] at hx
  simp only [List.mem_append, List.mem_cons, List.mem_singleton, List.not_mem_nil, or_false,
    Option.mem_toList, Option.mem_def, List.mem_filter] at hx
  have hm : ∀ p, lastOf p (c.fields ++ inp) = some x → x ∈ c.fields ∨ x ∈ inp := by
    intro p hp
    have := (lastOf_mem p _ x hp).2
    rwa [List.mem_append] at this
  rcases hx with (((h | h) | (h | h) | h) | h) | h
  · exact Or.inl h
  · exact Or.inr (Or.inl h)
  · exact Or.inr (Or.inr (Or.inr (hm _ h)))
  · exact Or.inr (Or.inr (Or.inr (hm _ h)))
  · exact Or.inr (Or.inr (Or.inr (hm _ h)))
  · exact Or.inr (Or.inr (Or.inl h))
  · exact Or.inr (Or.inr (Or.inr h.1))

theorem forwarded_length (c : Core) (e : Entry) (inp : List Field) :
    (forwarded c e inp).length ≤ inp.length + c.fields.length + 3 := by
  have hb := slots_attrs_le (c.fields ++ inp)
  rw [forwarded_eq]
  simp only [List.length_append, List.length_cons, List.length_nil] at hb ⊢
  omega

/-! ## Memory: derivation and Write leave the slices of others alone -/

/-- C11: `With` is non-mutating. For every memory, parent decorator and field slices `f`
and `g` (all valid in that memory): after `child1 = parent.With(f)` and then
`child2 = parent.With(g)`, the parent's contextual fields read as before, and so do `f` and
`g`; the fields of `child1` are the parent's followed by those of `f`, right after its
derivation and still after the derivation of `child2`; the fields of `child2` are the
parent's followed by those of `g`; both children hold the parent's inner core; and a Write
on the parent forwards the same sequence after the derivations as before them, every
element of which is the body, severity or namespace field, a contextual field of the
parent, or a call-site field. -/
theorem C11_with_is_non_mutating (h h1 h2 : Heap) (parent child1 child2 : Mem.Core)
    (f g inp : Slice) (e : Entry)
    (hp : parent.fields.valid h) (hf : f.valid h) (hg : g.valid h) (hi : inp.valid h)
    (hd1 : Mem.Core.With h parent f = (h1, child1))
    (hd2 : Mem.Core.With h1 parent g = (h2, child2)) :
    Heap.read h1 parent.fields = Heap.read h parent.fields ∧
    Heap.read h2 parent.fields = Heap.read h parent.fields ∧
    Heap.read h2 f = Heap.read h f ∧ Heap.read h2 g = Heap.read h g ∧
    Heap.read h1 child1.fields = Heap.read h parent.fields ++ Heap.read h f ∧
    Heap.read h2 child1.fields = Heap.read h parent.fields ++ Heap.read h f ∧
    Heap.read h2 child2.fields = Heap.read h parent.fields ++ Heap.read h g ∧
    child1.next = parent.next ∧ child2.next = parent.next ∧
    ∃ out : List Field,
      (Mem.Core.Write h parent e inp).2.calls = [SinkCall.Write e out] ∧
      (Mem.Core.Write h2 parent e inp).2.calls = [SinkCall.Write e out] ∧
      ∀ x ∈ out,
        x = zap.String "body" e.Message ∨
        x = zap.Int "severity" (levelToSeverity e.Level) ∨
        x = zap.Namespace "attributes" ∨
        x ∈ Heap.read h parent.fields ∨ x ∈ Heap.read h inp := by
  obtain ⟨⟨A1, hA1⟩, hv1, hr1, hn1⟩ := With_spec h parent f hp hf
  rw [hd1] at hA1 hv1 hr1 hn1
  simp only at hA1 hv1 hr1 hn1
  have hp1 : parent.fields.valid h1 := hA1 ▸ valid_append h _ _ hp
  have hg1 : g.valid h1 := hA1 ▸ valid_append h _ _ hg
  have hf1 : f.valid h1 := hA1 ▸ valid_append h _ _ hf
  have hi1 : inp.valid h1 := hA1 ▸ valid_append h _ _ hi
  have rd1 : ∀ s : Slice, s.valid h → Heap.read h1 s = Heap.read h s := by
    intro s hs
    rw [hA1]
    exact read_append_left h _ s hs
  obtain ⟨⟨A2, hA2⟩, hv2, hr2, hn2⟩ := With_spec h1 parent g hp1 hg1
  rw [hd2] at hA2 hv2 hr2 hn2
  simp only at hA2 hv2 hr2 hn2
  have rd2 : ∀ s : Slice, s.valid h1 → Heap.read h2 s = Heap.read h1 s := by
    intro s hs
    rw [hA2]
    exact read_append_left h1 _ s hs
  have hp2 : parent.fields.valid h2 := hA2 ▸ valid_append h1 _ _ hp1
  have hi2 : inp.valid h2 := hA2 ▸ valid_append h1 _ _ hi1
  refine ⟨rd1 _ hp, (rd2 _ hp1).trans (rd1 _ hp), (rd2 _ hf1).trans (rd1 _ hf),
    (rd2 _ hg1).trans (rd1 _ hg), hr1, (rd2 _ hv1).trans hr1, ?_, hn1, hn2, ?_⟩
  · rw [hr2, rd1 _ hp, rd1 _ hg]
  · obtain ⟨O, A, hW⟩ := Write_refines h parent e inp hp hi
    obtain ⟨O2, A2, hW2⟩ := Write_refines h2 parent e inp hp2 hi2
    refine ⟨forwarded { next := parent.next, fields := Heap.read h parent.fields } e
      (Heap.read h inp), ?_, ?_, ?_⟩
    · rw [hW]
      rfl
    · rw [hW2, (rd2 _ hp1).trans (rd1 _ hp), (rd2 _ hi1).trans (rd1 _ hi)]
      rfl
    · exact forwarded_mem _ e _

/-- C11, witness: in `heap1`, the decorator `core1` derived with `slice2` and then with
`slice1`, and written to with `slice1`. -/
theorem C11_with_is_non_mutating_witness :
    (core1.fields.valid heap1 ∧ slice2.valid heap1 ∧ slice1.valid heap1) ∧
    Heap.read derived1.1 core1.fields = Heap.read heap1 core1.fields ∧
    Heap.read derived2.1 core1.fields = Heap.read heap1 core1.fields ∧
    Heap.read derived2.1 slice2 = Heap.read heap1 slice2 ∧
    Heap.read derived2.1 slice1 = Heap.read heap1 slice1 ∧
    Heap.read derived1.1 derived1.2.fields =
      Heap.read heap1 core1.fields ++ Heap.read heap1 slice2 ∧
    Heap.read derived2.1 derived1.2.fields =
      Heap.read heap1 core1.fields ++ Heap.read heap1 slice2 ∧
    Heap.read derived2.1 derived2.2.fields =
      Heap.read heap1 core1.fields ++ Heap.read heap1 slice1 ∧
    derived1.2.next = core1.next ∧ derived2.2.next = core1.next ∧
    ∃ out : List Field,
      (Mem.Core.Write heap1 core1 entry1 slice1).2.calls = [SinkCall.Write entry1 out] ∧
      (Mem.Core.Write derived2.1 core1 entry1 slice1).2.calls = [SinkCall.Write entry1 out] ∧
      ∀ x ∈ out,
        x = zap.String "body" entry1.Message ∨
        x = zap.Int "severity" (levelToSeverity entry1.Level) ∨
        x = zap.Namespace "attributes" ∨
        x ∈ Heap.read heap1 core1.fields ∨ x ∈ Heap.read heap1 slice1 :=
  ⟨by unfold Slice.valid; decide,
    C11_with_is_non_mutating heap1 derived1.1 derived2.1 core1 derived1.2 derived2.2
      slice2 slice1 slice1 entry1 (by unfold Slice.valid; decide)
      (by unfold Slice.valid; decide) (by unfold Slice.valid; decide)
      (by unfold Slice.valid; decide) rfl rfl⟩

/-- C16: Write is deterministic and leaves its inputs unchanged. For every memory,
decorator, entry and call-site slice (valid in that memory): after the Write the
contextual fields and the call-site fields read as before it, the Write makes the call
that `Core.Write` on these field values makes, and a second Write with the same entry and
slices, in the memory that the first one left, makes the same call. -/
theorem C16_write_deterministic (h : Heap) (c : Mem.Core) (e : Entry) (inp : Slice)
    (hc : c.fields.valid h) (hi : inp.valid h) :
    Heap.read (Mem.Core.Write h c e inp).1 c.fields = Heap.read h c.fields ∧
    Heap.read (Mem.Core.Write h c e inp).1 inp = Heap.read h inp ∧
    (Mem.Core.Write h c e inp).2.calls =
      (Core.Write { next := c.next, fields := Heap.read h c.fields } e
        (Heap.read h inp)).calls ∧
    (Mem.Core.Write (Mem.Core.Write h c e inp).1 c e inp).2.calls =
      (Mem.Core.Write h c e inp).2.calls := by
  obtain ⟨hrc, hvc⟩ := Write_frame h c e inp hc hi c.fields hc
  obtain ⟨hri, hvi⟩ := Write_frame h c e inp hc hi inp hi
  obtain ⟨O, A, hW⟩ := Write_refines h c e inp hc hi
  obtain ⟨O2, A2, hW2⟩ := Write_refines (Mem.Core.Write h c e inp).1 c e inp hvc hvi
  refine ⟨hrc, hri, ?_, ?_⟩
  · rw [hW]
  · rw [hW2, hrc, hri, hW]

/-- C16, witness: a Write on `core1` in `heap1` with the call-site slice `slice1`. -/
theorem C16_write_deterministic_witness :
    (core1.fields.valid heap1 ∧ slice1.valid heap1) ∧
    Heap.read (Mem.Core.Write heap1 core1 entry1 slice1).1 core1.fields =
      Heap.read heap1 core1.fields ∧
    Heap.read (Mem.Core.Write heap1 core1 entry1 slice1).1 slice1 = Heap.read heap1 slice1 ∧
    (Mem.Core.Write heap1 core1 entry1 slice1).2.calls =
      (Core.Write { next := core1.next, fields := Heap.read heap1 core1.fields } entry1
        (Heap.read heap1 slice1)).calls ∧
    (Mem.Core.Write (Mem.Core.Write heap1 core1 entry1 slice1).1 core1 entry1 slice1).2.calls =
      (Mem.Core.Write heap1 core1 entry1 slice1).2.calls :=
  ⟨by unfold Slice.valid; decide,
    C16_write_deterministic heap1 core1 entry1 slice1 (by unfold Slice.valid; decide)
      (by unfold Slice.valid; decide)⟩

/-- C17: the capacity hint of Write is sufficient. For every decorator and call-site field
list the forwarded sequence has at most `len(in) + len(c.fields) + 3` elements and the
attribute list at most `len(in) + len(c.fields)`; and on memory (for valid slices) Write
allocates exactly the two arrays of its two `make` calls, so no `append` outgrows the
capacity `len(in) + 3 + len(c.fields)` of `out` or of `attributes`. -/
theorem C17_capacity_hint_sufficient (h : Heap) (c : Mem.Core) (e : Entry) (inp : Slice)
    (hc : c.fields.valid h) (hi : inp.valid h) :
    (∀ (c0 : Core) (inp0 : List Field),
      (∃ out : List Field, (Core.Write c0 e inp0).calls = [SinkCall.Write e out] ∧
        out.length ≤ inp0.length + c0.fields.length + 3) ∧
      (Core.Write.scan [c0.fields, inp0]).attributes.length
        ≤ inp0.length + c0.fields.length) ∧
    (∃ out : List Field, (Mem.Core.Write h c e inp).2.calls = [SinkCall.Write e out] ∧
      out.length ≤ inp.len + c.fields.len + 3) ∧
    (Mem.Core.Write h c e inp).1.length = h.length + 2 := by
  obtain ⟨O, A, hW⟩ := Write_refines h c e inp hc hi
  refine ⟨?_, ?_, ?_⟩
  · intro c0 inp0
    refine ⟨⟨forwarded c0 e inp0, rfl, forwarded_length c0 e inp0⟩, ?_⟩
    rw [scan_eq]
    have := List.length_filter_le (fun f => !isCorrelation f) (c0.fields ++ inp0)
    simp only [List.length_append] at this ⊢
    omega
  · refine ⟨forwarded { next := c.next, fields := Heap.read h c.fields } e (Heap.read h inp),
      ?_, ?_⟩
    · rw [hW]
      rfl
    · have := forwarded_length { next := c.next, fields := Heap.read h c.fields } e
        (Heap.read h inp)
      rwa [read_length h c.fields hc, read_length h inp hi] at this
  · rw [hW]
    simp

/-- C17, witness: a Write on `core1` in `heap1` with the call-site slice `slice1`. -/
theorem C17_capacity_hint_sufficient_witness :
    (core1.fields.valid heap1 ∧ slice1.valid heap1) ∧
    (∀ (c0 : Core) (inp0 : List Field),
      (∃ out : List Field, (Core.Write c0 entry1 inp0).calls = [SinkCall.Write entry1 out] ∧
        out.length ≤ inp0.length + c0.fields.length + 3) ∧
      (Core.Write.scan [c0.fields, inp0]).attributes.length
        ≤ inp0.length + c0.fields.length) ∧
    (∃ out : List Field,
      (Mem.Core.Write heap1 core1 entry1 slice1).2.calls = [SinkCall.Write entry1 out] ∧
      out.length ≤ slice1.len + core1.fields.len + 3) ∧
    (Mem.Core.Write heap1 core1 entry1 slice1).1.length = heap1.length + 2 :=
  ⟨by unfold Slice.valid; decide,
    C17_capacity_hint_sufficient heap1 core1 entry1 slice1 (by unfold Slice.valid; decide)
      (by unfold Slice.valid; decide)⟩

end Zapotel
